import Mathlib

/-!
Ledger acquisition (LedgerAcquire.cpp)

A shallow embedding of `PeerSet` and `LedgerAcquire` from `src/LedgerAcquire.cpp`.

* The object state is a record; every member function becomes a function from the
  state before the call to the state after it.
* What the object does to the outside world (packets handed to a peer, completion
  callbacks invoked, the timer being armed) is appended to the field `out`, oldest
  event first.
* The collaborators whose code is not in `LedgerAcquire.cpp` (the ledger header
  parser, the SHAMap of a tree, `Peer::samePeer`, `SHAMapNode`) are the fields of
  `Env`; every function takes them as a parameter.
* A weak pointer in `mPeers` is the identifier of a `Peer` object; whether the
  object still exists is given by `alive`, passed to every call, so that it may
  differ from one call to the next.
* A failed `assert`, the dereference of a null `mLedger` and a read past the end
  of the data list end the call without a result: the functions return `Option`.
-/

namespace Ripple

/-- A `uint256`; `0` is the zero hash. -/
abbrev Hash := Nat

/-- A byte string (`std::string`, `std::vector<unsigned char>`). -/
abbrev Blob := List Nat

/-- The identity of one `Peer` object. -/
abbrev PeerId := Nat

/-- A `SHAMapNode`, the identifier of a node of a tree. -/
abbrev SHAMapNode := Nat

/-- A registered completion function, by its number. -/
abbrev Callback := Nat

/-- The values of `newcoin::TMLedgerInfoType` used here. -/
inductive LedgerInfoType where
  | liBASE
  | liTX_NODE
  | liAS_NODE
  deriving DecidableEq, Repr

/-- The message `newcoin::TMGetLedger` with the fields this file sets. -/
structure TMGetLedger where
  ledgerhash : Hash
  itype : LedgerInfoType
  ledgerseq : Option Nat
  nodeids : List Blob
  deriving DecidableEq, Repr

/-- What an acquisition does to the outside world. -/
inductive Event where
  | sendPacket (peer : PeerId) (msg : TMGetLedger)
  | callback (cb : Callback)
  | resetTimer
  deriving DecidableEq, Repr

/-- The part of a `Ledger` that the acquisition reads or writes; `M` is the state
of a SHAMap. -/
structure Ledger (M : Type) where
  hash : Hash
  transHash : Hash
  accountHash : Hash
  ledgerSeq : Nat
  acquiring : Bool
  transactionMap : M
  accountStateMap : M
  deriving DecidableEq, Repr

/-- The collaborators of `LedgerAcquire.cpp`. Operations that change a SHAMap
return the map after the call. -/
structure Env (M : Type) where
  /-- The constructor `Ledger(data)`. -/
  parseLedger : Blob → Ledger M
  /-- The test `a->samePeer(b)`. -/
  samePeer : PeerId → PeerId → Bool
  /-- The hash of the root of a map, zero while it has no root. -/
  getHash : M → Hash
  /-- The call `getMissingNodes(nodeIDs, nodeHashes, max, &mFilter)`: the node ids
  it returns and the map afterwards. -/
  getMissingNodes : M → Nat → List SHAMapNode × M
  isValid : M → Bool
  isSynching : M → Bool
  /-- The call `addRootNode(hash, data)`. -/
  addRootNode : M → Hash → Blob → Bool × M
  /-- The call `addKnownNode(id, data, &mFilter)`. -/
  addKnownNode : M → SHAMapNode → Blob → Bool × M
  isRoot : SHAMapNode → Bool
  /-- The node `SHAMapNode()`. -/
  rootNode : SHAMapNode
  getRawString : SHAMapNode → Blob

/-- The members of `LedgerAcquire`, those inherited from `PeerSet` first. -/
structure LedgerAcquire (M : Type) where
  mHash : Hash
  mTimerInterval : Nat
  mTimeouts : Int
  mComplete : Bool
  mFailed : Bool
  mProgress : Bool
  mPeers : List PeerId
  mLedger : Option (Ledger M)
  mHaveBase : Bool
  mHaveState : Bool
  mHaveTransactions : Bool
  mOnComplete : List Callback
  out : List Event
  deriving DecidableEq, Repr

/-- The value of `LEDGER_ACQUIRE_TIMEOUT`. -/
def LEDGER_ACQUIRE_TIMEOUT : Nat := 2

/-- The constructors `PeerSet(hash, interval)` and `LedgerAcquire(hash)`. -/
def LedgerAcquire.new {M : Type} (hash : Hash) : LedgerAcquire M :=
  { mHash := hash
    mTimerInterval := LEDGER_ACQUIRE_TIMEOUT
    mTimeouts := 0
    mComplete := false
    mFailed := false
    mProgress := true
    mPeers := []
    mLedger := none
    mHaveBase := false
    mHaveState := false
    mHaveTransactions := false
    mOnComplete := []
    out := [] }

/-! ## Members declared in LedgerAcquire.h -/

/-- Modelled from the spec: `PeerSet::setComplete` is defined in `LedgerAcquire.h`,
which is not among the sources. The spec says of `done()` that it "sets `complete`
(if not already via a failure)": `complete` becomes true unless `failed` is set. -/
def setComplete {M : Type} (s : LedgerAcquire M) : LedgerAcquire M :=
  if s.mFailed then s else { s with mComplete := true }

/-- Modelled from the spec: `PeerSet::progress` is defined in `LedgerAcquire.h`,
which is not among the sources. The spec: "sets `progress = true`". -/
def progress {M : Type} (s : LedgerAcquire M) : LedgerAcquire M :=
  { s with mProgress := true }

/-! ## PeerSet -/

/-- The loop of `PeerSet::peerHas`: whether a live entry is the same peer as `ptr`,
and the list when the loop is left. -/
def peerHasLoop (samePeer : PeerId → PeerId → Bool) (alive : PeerId → Bool) (ptr : PeerId) :
    List PeerId → Bool × List PeerId
  | [] => (false, [])
  | pr :: rest =>
    if !alive pr then peerHasLoop samePeer alive ptr rest
    else if samePeer pr ptr then (true, pr :: rest)
    else
      let r := peerHasLoop samePeer alive ptr rest
      (r.1, pr :: r.2)

/-- The loop of `PeerSet::badPeer`. -/
def badPeerLoop (samePeer : PeerId → PeerId → Bool) (alive : PeerId → Bool) (ptr : PeerId) :
    List PeerId → List PeerId
  | [] => []
  | pr :: rest =>
    if !alive pr then badPeerLoop samePeer alive ptr rest
    else if samePeer ptr pr then rest
    else pr :: badPeerLoop samePeer alive ptr rest

/-- The function `PeerSet::badPeer`. -/
def badPeer {M : Type} (env : Env M) (alive : PeerId → Bool) (s : LedgerAcquire M)
    (ptr : PeerId) : LedgerAcquire M :=
  { s with mPeers := badPeerLoop env.samePeer alive ptr s.mPeers }

/-- The function `PeerSet::resetTimer`. -/
def resetTimer {M : Type} (s : LedgerAcquire M) : LedgerAcquire M :=
  { s with out := s.out ++ [Event.resetTimer] }

/-- The function `PeerSet::sendRequest(tmGL, peer)`. -/
def sendRequestTo {M : Type} (s : LedgerAcquire M) (tmGL : TMGetLedger) (peer : PeerId) :
    LedgerAcquire M :=
  { s with out := s.out ++ [Event.sendPacket peer tmGL] }

/-- The loop of `PeerSet::sendRequest(tmGL)`: the list when the loop is left and the
peer the packet went to, if any. -/
def sendRequestLoop (alive : PeerId → Bool) : List PeerId → List PeerId × Option PeerId
  | [] => ([], none)
  | p :: rest =>
    if !alive p then sendRequestLoop alive rest
    else (p :: rest, some p)

/-- The function `PeerSet::sendRequest(tmGL)`. -/
def sendRequest {M : Type} (alive : PeerId → Bool) (s : LedgerAcquire M) (tmGL : TMGetLedger) :
    LedgerAcquire M :=
  if s.mPeers.isEmpty then s
  else
    match sendRequestLoop alive s.mPeers with
    | (l, some p) => { s with mPeers := l, out := s.out ++ [Event.sendPacket p tmGL] }
    | (l, none) => { s with mPeers := l }

/-! ## LedgerAcquire -/

/-- The function `LedgerAcquire::done`. The statement `mOnComplete.empty()` only asks
whether the vector is empty, so the vector keeps its elements. -/
def done {M : Type} (s : LedgerAcquire M) : LedgerAcquire M :=
  let s1 := setComplete s
  { s1 with out := s1.out ++ s1.mOnComplete.map Event.callback }

/-- The function `LedgerAcquire::addOnComplete`. -/
def addOnComplete {M : Type} (s : LedgerAcquire M) (cb : Callback) : LedgerAcquire M :=
  { s with mOnComplete := s.mOnComplete ++ [cb] }

/-- How a block of `trigger` is left. -/
inductive Flow (α : Type) where
  /-- The function returned. -/
  | ret (a : α)
  /-- Control went on to the next statement. -/
  | next (a : α)
  /-- An assertion failed. -/
  | fault
  deriving DecidableEq, Repr

/-- The lines `if (peer) { sendRequest(tmGL, peer); return; } sendRequest(tmGL);`. -/
def request {M : Type} (alive : PeerId → Bool) (s : LedgerAcquire M) (tmGL : TMGetLedger)
    (peer : Option PeerId) : Flow (LedgerAcquire M) :=
  match peer with
  | some p => Flow.ret (sendRequestTo s tmGL p)
  | none => Flow.next (sendRequest alive s tmGL)

/-- The request for the header: `set_ledgerhash(mHash)`, `set_itype(liBASE)`. -/
def baseRequest (hash : Hash) : TMGetLedger :=
  { ledgerhash := hash, itype := LedgerInfoType.liBASE, ledgerseq := none, nodeids := [] }

/-- The block `if (!mHaveBase)` of `trigger`. -/
def triggerBase {M : Type} (alive : PeerId → Bool) (s : LedgerAcquire M)
    (peer : Option PeerId) : Flow (LedgerAcquire M) :=
  if !s.mHaveBase then request alive s (baseRequest s.mHash) peer
  else Flow.next s

/-- The block `if (mHaveBase && !mHaveTransactions)` of `trigger`. -/
def triggerTx {M : Type} (env : Env M) (alive : PeerId → Bool) (s : LedgerAcquire M)
    (peer : Option PeerId) : Flow (LedgerAcquire M) :=
  if s.mHaveBase && !s.mHaveTransactions then
    match s.mLedger with
    | none => Flow.fault
    | some ledger =>
      if env.getHash ledger.transactionMap == 0 then
        request alive s
          { ledgerhash := s.mHash, itype := LedgerInfoType.liTX_NODE,
            ledgerseq := some ledger.ledgerSeq,
            nodeids := [env.getRawString env.rootNode] }
          peer
      else
        let r := env.getMissingNodes ledger.transactionMap 128
        let s1 := { s with mLedger := some { ledger with transactionMap := r.2 } }
        if r.1.isEmpty then
          if !env.isValid r.2 then Flow.next { s1 with mFailed := true }
          else
            let s2 := { s1 with mHaveTransactions := true }
            Flow.next (if s2.mHaveState then { s2 with mComplete := true } else s2)
        else
          request alive s1
            { ledgerhash := s.mHash, itype := LedgerInfoType.liTX_NODE,
              ledgerseq := some ledger.ledgerSeq,
              nodeids := r.1.map env.getRawString }
            peer
  else Flow.next s

/-- The block `if (mHaveBase && !mHaveState)` of `trigger`. -/
def triggerAs {M : Type} (env : Env M) (alive : PeerId → Bool) (s : LedgerAcquire M)
    (peer : Option PeerId) : Flow (LedgerAcquire M) :=
  if s.mHaveBase && !s.mHaveState then
    match s.mLedger with
    | none => Flow.fault
    | some ledger =>
      if env.getHash ledger.accountStateMap == 0 then
        request alive s
          { ledgerhash := s.mHash, itype := LedgerInfoType.liAS_NODE,
            ledgerseq := some ledger.ledgerSeq,
            nodeids := [env.getRawString env.rootNode] }
          peer
      else
        let r := env.getMissingNodes ledger.accountStateMap 128
        let s1 := { s with mLedger := some { ledger with accountStateMap := r.2 } }
        if r.1.isEmpty then
          if !env.isValid r.2 then Flow.next { s1 with mFailed := true }
          else
            let s2 := { s1 with mHaveState := true }
            Flow.next (if s2.mHaveTransactions then { s2 with mComplete := true } else s2)
        else
          request alive s1
            { ledgerhash := s.mHash, itype := LedgerInfoType.liAS_NODE,
              ledgerseq := some ledger.ledgerSeq,
              nodeids := r.1.map env.getRawString }
            peer
  else Flow.next s

/-- The last statement of `trigger`: `if (mComplete || mFailed) done(); else resetTimer();`. -/
def triggerEnd {M : Type} (s : LedgerAcquire M) : LedgerAcquire M :=
  if s.mComplete || s.mFailed then done s else resetTimer s

/-- The function `LedgerAcquire::trigger`; `peer = none` is the null pointer. -/
def trigger {M : Type} (env : Env M) (alive : PeerId → Bool) (s : LedgerAcquire M)
    (peer : Option PeerId) : Option (LedgerAcquire M) :=
  if s.mComplete || s.mFailed then some s
  else
    match triggerBase alive s peer with
    | Flow.fault => none
    | Flow.ret s1 => some s1
    | Flow.next s1 =>
      match triggerTx env alive s1 peer with
      | Flow.fault => none
      | Flow.ret s2 => some s2
      | Flow.next s2 =>
        match triggerAs env alive s2 peer with
        | Flow.fault => none
        | Flow.ret s3 => some s3
        | Flow.next s3 => some (triggerEnd s3)

/-- Modelled from the spec: `LedgerAcquire::newPeer` is defined in `LedgerAcquire.h`,
which is not among the sources. The spec: `trigger` is called after a new peer
joined, with that peer. -/
def newPeer {M : Type} (env : Env M) (alive : PeerId → Bool) (s : LedgerAcquire M)
    (peer : PeerId) : Option (LedgerAcquire M) :=
  trigger env alive s (some peer)

/-- Modelled from the spec: `LedgerAcquire::onTimer` is defined in `LedgerAcquire.h`,
which is not among the sources. The spec: `trigger` is called when the timer fired,
without a peer. -/
def onTimer {M : Type} (env : Env M) (alive : PeerId → Bool) (s : LedgerAcquire M) :
    Option (LedgerAcquire M) :=
  trigger env alive s none

/-- The function `PeerSet::peerHas`. -/
def peerHas {M : Type} (env : Env M) (alive : PeerId → Bool) (s : LedgerAcquire M)
    (ptr : PeerId) : Option (LedgerAcquire M) :=
  let r := peerHasLoop env.samePeer alive ptr s.mPeers
  if r.1 then some { s with mPeers := r.2 }
  else newPeer env alive { s with mPeers := r.2 ++ [ptr] } ptr

/-- The largest value of an `int` of 32 bits. -/
def INT_MAX : Int := 2147483647

/-- The smallest value of an `int` of 32 bits. -/
def INT_MIN : Int := -2147483648

/-- The statement `++n` on an `int` of 32 bits: one more, and from the largest value
around to the smallest. -/
def incInt (n : Int) : Int :=
  (n + 1 + 2147483648) % 4294967296 - 2147483648

/-- The function `PeerSet::invokeOnTimer`. The counter `mTimeouts` is an `int`, so
`++mTimeouts` is `incInt`. -/
def invokeOnTimer {M : Type} (env : Env M) (alive : PeerId → Bool) (s : LedgerAcquire M) :
    Option (LedgerAcquire M) :=
  if !s.mProgress then onTimer env alive { s with mTimeouts := incInt s.mTimeouts }
  else onTimer env alive { s with mProgress := false }

/-- The function `LedgerAcquire::takeBase`. -/
def takeBase {M : Type} (env : Env M) (alive : PeerId → Bool) (s : LedgerAcquire M)
    (data : Blob) (peer : Option PeerId) : Option (Bool × LedgerAcquire M) :=
  if s.mHaveBase then some (true, s)
  else
    let ledger := env.parseLedger data
    if ledger.hash != s.mHash then some (false, { s with mLedger := none })
    else
      let s1 := progress { s with mLedger := some ledger, mHaveBase := true }
      let s2 := if ledger.transHash == 0 then { s1 with mHaveTransactions := true } else s1
      let s3 := if ledger.accountHash == 0 then { s2 with mHaveState := true } else s2
      let s4 := { s3 with mLedger := some { ledger with acquiring := true } }
      (trigger env alive s4 peer).map (fun t => (true, t))

/-- How the loop over a batch of nodes is left. -/
inductive Walk (M : Type) where
  /-- Every node was added. -/
  | added (m : M)
  /-- A node was refused: `return false`. -/
  | refused (m : M)
  /-- The data list ended before the id list did. -/
  | pastEnd
  deriving DecidableEq, Repr

/-- The body of the `while` loop of `takeTxNode` and `takeAsNode`: the root goes to
`addRootNode`, another node to `addKnownNode`; the result says whether the node was
accepted. -/
def addNode {M : Type} (env : Env M) (rootHash : Hash) (m : M) (id : SHAMapNode) (d : Blob) :
    Bool × M :=
  if env.isRoot id then env.addRootNode m rootHash d else env.addKnownNode m id d

/-- The `while` loop of `takeTxNode` and `takeAsNode` on the map `m`, with `rootHash`
the hash the ledger header gives for the root. -/
def addNodes {M : Type} (env : Env M) (rootHash : Hash) :
    M → List SHAMapNode → List Blob → Walk M
  | m, [], _ => Walk.added m
  | _, _ :: _, [] => Walk.pastEnd
  | m, id :: ids, d :: ds =>
    let r := addNode env rootHash m id d
    if !r.1 then Walk.refused r.2 else addNodes env rootHash r.2 ids ds

/-- The function `LedgerAcquire::takeTxNode`. -/
def takeTxNode {M : Type} (env : Env M) (alive : PeerId → Bool) (s : LedgerAcquire M)
    (nodeIDs : List SHAMapNode) (data : List Blob) (peer : Option PeerId) :
    Option (Bool × LedgerAcquire M) :=
  if !s.mHaveBase then some (false, s)
  else
    match s.mLedger with
    | none => none
    | some ledger =>
      match addNodes env ledger.transHash ledger.transactionMap nodeIDs data with
      | Walk.pastEnd => none
      | Walk.refused m =>
        some (false, { s with mLedger := some { ledger with transactionMap := m } })
      | Walk.added m =>
        let s1 := { s with mLedger := some { ledger with transactionMap := m } }
        let s2 :=
          if !env.isSynching m then
            let s3 := { s1 with mHaveTransactions := true }
            if s3.mHaveState then { s3 with mComplete := true } else s3
          else s1
        (trigger env alive s2 peer).map (fun t => (true, progress t))

/-- The function `LedgerAcquire::takeAsNode`. -/
def takeAsNode {M : Type} (env : Env M) (alive : PeerId → Bool) (s : LedgerAcquire M)
    (nodeIDs : List SHAMapNode) (data : List Blob) (peer : Option PeerId) :
    Option (Bool × LedgerAcquire M) :=
  if !s.mHaveBase then some (false, s)
  else
    match s.mLedger with
    | none => none
    | some ledger =>
      match addNodes env ledger.accountHash ledger.accountStateMap nodeIDs data with
      | Walk.pastEnd => none
      | Walk.refused m =>
        some (false, { s with mLedger := some { ledger with accountStateMap := m } })
      | Walk.added m =>
        let s1 := { s with mLedger := some { ledger with accountStateMap := m } }
        let s2 :=
          if !env.isSynching m then
            let s3 := { s1 with mHaveState := true }
            if s3.mHaveTransactions then { s3 with mComplete := true } else s3
          else s1
        (trigger env alive s2 peer).map (fun t => (true, progress t))

/-! ## Runs of an acquisition -/

/-- A call of a member function from outside. -/
inductive Op where
  | takeBase (data : Blob) (peer : Option PeerId)
  | takeTxNode (nodeIDs : List SHAMapNode) (data : List Blob) (peer : Option PeerId)
  | takeAsNode (nodeIDs : List SHAMapNode) (data : List Blob) (peer : Option PeerId)
  | trigger (peer : Option PeerId)
  | timer
  | done
  | addOnComplete (cb : Callback)
  | peerHas (ptr : PeerId)
  | badPeer (ptr : PeerId)
  deriving DecidableEq, Repr

/-- The state after one call, made while the live peers are those of `alive`. -/
def applyOp {M : Type} (env : Env M) (alive : PeerId → Bool) (s : LedgerAcquire M) :
    Op → Option (LedgerAcquire M)
  | Op.takeBase data peer => (takeBase env alive s data peer).map (fun r => r.2)
  | Op.takeTxNode ids data peer => (takeTxNode env alive s ids data peer).map (fun r => r.2)
  | Op.takeAsNode ids data peer => (takeAsNode env alive s ids data peer).map (fun r => r.2)
  | Op.trigger peer => trigger env alive s peer
  | Op.timer => invokeOnTimer env alive s
  | Op.done => some (done s)
  | Op.addOnComplete cb => some (addOnComplete s cb)
  | Op.peerHas ptr => peerHas env alive s ptr
  | Op.badPeer ptr => some (badPeer env alive s ptr)

/-- The state after a sequence of calls, each with the live peers of its moment. -/
def run {M : Type} (env : Env M) (s : LedgerAcquire M) :
    List ((PeerId → Bool) × Op) → Option (LedgerAcquire M)
  | [] => some s
  | c :: cs =>
    match applyOp env c.1 s c.2 with
    | none => none
    | some s1 => run env s1 cs

/-- Whether an event is a packet handed to a peer. -/
def Event.isSend : Event → Bool
  | Event.sendPacket _ _ => true
  | _ => false

/-- Whether an event is the invocation of the completion function `cb`. -/
def Event.isCallback (cb : Callback) : Event → Bool
  | Event.callback c => c == cb
  | _ => false

/-! ## A sample environment

A small tree and a small header format, for runs on concrete inputs. A header is
the blob `[hash, transHash, accountHash, seq]`; a fresh ledger has two empty maps.
The blob of a root node is `hash :: v :: children`, where `v = 0` marks a node
whose structure is broken; the blob of another node is not looked at. -/

/-- The state of the sample tree. -/
structure SampleMap where
  hash : Hash
  missing : List SHAMapNode
  valid : Bool
  synching : Bool
  deriving DecidableEq, Repr

/-- The sample tree without a root. -/
def SampleMap.empty : SampleMap :=
  { hash := 0, missing := [], valid := true, synching := true }

/-- Adding a root node to the sample tree: a tree that has a root accepts and
ignores it; a blob whose hash is the expected one becomes the root, and a sound
root without children ends the synching. -/
def SampleMap.addRootNode (m : SampleMap) (expected : Hash) : Blob → Bool × SampleMap
  | h :: v :: children =>
    if m.hash != 0 then (true, m)
    else if h == expected then
      (true, { hash := h, missing := children, valid := v != 0,
               synching := !(children.isEmpty && v != 0) })
    else (false, m)
  | _ => (m.hash != 0, m)

/-- Adding another node to the sample tree: accepted when the node is missing. -/
def SampleMap.addKnownNode (m : SampleMap) (id : SHAMapNode) (_data : Blob) : Bool × SampleMap :=
  if m.missing.contains id then
    (true, { m with missing := m.missing.erase id, synching := !(m.missing.erase id).isEmpty })
  else (false, m)

/-- The missing nodes of the sample tree, at most `max`; a tree that misses nothing
ends the synching. -/
def SampleMap.getMissingNodes (m : SampleMap) (max : Nat) : List SHAMapNode × SampleMap :=
  if m.missing.isEmpty then ([], { m with synching := false })
  else (m.missing.take max, m)

/-- The sample header parser. -/
def sampleParse : Blob → Ledger SampleMap
  | [h, t, a, seq] =>
    { hash := h, transHash := t, accountHash := a, ledgerSeq := seq, acquiring := false,
      transactionMap := SampleMap.empty, accountStateMap := SampleMap.empty }
  | _ =>
    { hash := 0, transHash := 0, accountHash := 0, ledgerSeq := 0, acquiring := false,
      transactionMap := SampleMap.empty, accountStateMap := SampleMap.empty }

/-- The sample environment. Two peer objects are the same peer when their numbers
agree up to the last digit; the root node is node `0`. -/
def sampleEnv : Env SampleMap :=
  { parseLedger := sampleParse
    samePeer := fun a b => a / 10 == b / 10
    getHash := fun m => m.hash
    getMissingNodes := SampleMap.getMissingNodes
    isValid := fun m => m.valid
    isSynching := fun m => m.synching
    addRootNode := SampleMap.addRootNode
    addKnownNode := SampleMap.addKnownNode
    isRoot := fun id => id == 0
    rootNode := 0
    getRawString := fun id => [id] }

/-- Every peer object exists. -/
def allAlive : PeerId → Bool := fun _ => true

/-- No peer object exists any more. -/
def noneAlive : PeerId → Bool := fun _ => false

/-! ## Predicates used in the statements -/

/-- A property of the state with which a block is left, whichever way. -/
def Flow.All {α : Type} (P : α → Prop) : Flow α → Prop
  | Flow.ret a => P a
  | Flow.next a => P a
  | Flow.fault => True

/-- What `trigger` leaves as it is: the flag of the base and the presence of the
ledger; and the peer list when a peer is given. -/
def Kept {M : Type} (peer : Option PeerId) (s t : LedgerAcquire M) : Prop :=
  t.mHaveBase = s.mHaveBase ∧ t.mLedger.isSome = s.mLedger.isSome ∧
    (peer.isSome = true → t.mPeers = s.mPeers)

/-- The ledger is there whenever the base is marked as held. -/
def HasLedger {M : Type} (s : LedgerAcquire M) : Prop :=
  s.mHaveBase = true → s.mLedger.isSome = true

/-- No entry of the list is the same peer as an entry before it. -/
def Distinct (samePeer : PeerId → PeerId → Bool) (l : List PeerId) : Prop :=
  l.Pairwise (fun a b => samePeer a b = false)

/-- Whether a call is `peerHas` or `badPeer`. -/
def Op.isPeerCall : Op → Bool
  | Op.peerHas _ => true
  | Op.badPeer _ => true
  | _ => false

/-- The four flags `(have_base, have_tx, have_state, complete)` and `failed`. -/
def flags {M : Type} (s : LedgerAcquire M) : Bool × Bool × Bool × Bool × Bool :=
  (s.mHaveBase, s.mHaveTransactions, s.mHaveState, s.mComplete, s.mFailed)

/-! ## Concrete states of the sample runs -/

/-- The request for the root of the account state tree of ledger `1`, sequence `3`. -/
def asRootRequest : TMGetLedger :=
  { ledgerhash := 1, itype := LedgerInfoType.liAS_NODE, ledgerseq := some 3, nodeids := [[0]] }

/-- The request for the root of the transaction tree of ledger `1`, sequence `3`. -/
def txRootRequest : TMGetLedger :=
  { ledgerhash := 1, itype := LedgerInfoType.liTX_NODE, ledgerseq := some 3, nodeids := [[0]] }

/-- The acquisition of ledger `1` with peer `10`, at the moment `takeTxNode` calls
`trigger` after it was given the broken root `[7, 0]` of the transaction tree: the
base is held, no tree is. -/
def brokenTxState : LedgerAcquire SampleMap :=
  { mHash := 1, mTimerInterval := 2, mTimeouts := 0, mComplete := false, mFailed := false,
    mProgress := true, mPeers := [10],
    mLedger := some
      { hash := 1, transHash := 7, accountHash := 9, ledgerSeq := 3, acquiring := true,
        transactionMap := { hash := 7, missing := [], valid := false, synching := true },
        accountStateMap := SampleMap.empty },
    mHaveBase := true, mHaveState := false, mHaveTransactions := false, mOnComplete := [],
    out := [Event.sendPacket 10 (baseRequest 1), Event.sendPacket 10 txRootRequest,
            Event.sendPacket 10 asRootRequest, Event.resetTimer] }

/-- The state `brokenTxState` after the block of the transaction tree in `trigger`:
`failed` is set, nothing was sent. -/
def brokenTxFailed : LedgerAcquire SampleMap :=
  { brokenTxState with
    mFailed := true
    mLedger := some
      { hash := 1, transHash := 7, accountHash := 9, ledgerSeq := 3, acquiring := true,
        transactionMap := { hash := 7, missing := [], valid := false, synching := false },
        accountStateMap := SampleMap.empty } }

/-- The acquisition of ledger `1` after `takeBase [1, 0, 9, 3]` and
`takeAsNode [0] [[9, 0]]`: the account state tree was found broken and `failed` is set. -/
def failedAsState : LedgerAcquire SampleMap :=
  { mHash := 1, mTimerInterval := 2, mTimeouts := 0, mComplete := false, mFailed := true,
    mProgress := true, mPeers := [],
    mLedger := some
      { hash := 1, transHash := 0, accountHash := 9, ledgerSeq := 3, acquiring := true,
        transactionMap := SampleMap.empty,
        accountStateMap := { hash := 9, missing := [], valid := false, synching := false } },
    mHaveBase := true, mHaveState := false, mHaveTransactions := true, mOnComplete := [],
    out := [Event.resetTimer] }


/-! ## LedgerAcquireMaster -/

/-- A node of the message `newcoin::TMLedgerData`; both fields are optional. -/
structure TMLedgerNode where
  nodeid : Option Blob
  nodedata : Option Blob
  deriving DecidableEq, Repr

/-- The message `newcoin::TMLedgerData`. The field `type` is `none` when the packet
carries a value other than `liBASE`, `liTX_NODE` and `liAS_NODE`. -/
structure TMLedgerData where
  ledgerhash : Blob
  type : Option LedgerInfoType
  nodes : List TMLedgerNode
  deriving DecidableEq, Repr

/-- The `uint256` that `memcpy(hash.begin(), packet.ledgerhash().data(), 32)` makes of
the bytes. -/
def toHash (bytes : Blob) : Hash :=
  bytes.foldl (fun acc b => acc * 256 + b % 256) 0

/-- The members of `LedgerAcquireMaster`. The map `mLedgers` holds, under a hash, the
identity of the `LedgerAcquire` object its pointer points to together with the state
of that object; `constructed` counts the objects made so far, and gives the next
object its identity. -/
structure LedgerAcquireMaster (M : Type) where
  mLedgers : List (Hash × Nat × LedgerAcquire M)
  constructed : Nat
  deriving DecidableEq, Repr

/-- The function `LedgerAcquireMaster::findCreate`: the identity of the object returned
and the registry afterwards. -/
def findCreate {M : Type} (reg : LedgerAcquireMaster M) (hash : Hash) :
    Nat × LedgerAcquireMaster M :=
  match reg.mLedgers.lookup hash with
  | some entry => (entry.1, reg)
  | none =>
    (reg.constructed,
      { mLedgers := (hash, reg.constructed, resetTimer (LedgerAcquire.new hash)) :: reg.mLedgers
        constructed := reg.constructed + 1 })

/-- The function `LedgerAcquireMaster::find`: the identity of the object found, if any,
and the registry afterwards. -/
def find {M : Type} (reg : LedgerAcquireMaster M) (hash : Hash) :
    Option Nat × LedgerAcquireMaster M :=
  ((reg.mLedgers.lookup hash).map (fun entry => entry.1), reg)

/-- The function `LedgerAcquireMaster::hasLedger`. -/
def hasLedger {M : Type} (reg : LedgerAcquireMaster M) (hash : Hash) :
    Bool × LedgerAcquireMaster M :=
  ((reg.mLedgers.lookup hash).isSome, reg)

/-- The function `LedgerAcquireMaster::dropLedger`. -/
def dropLedger {M : Type} (reg : LedgerAcquireMaster M) (hash : Hash) :
    LedgerAcquireMaster M :=
  { reg with mLedgers := reg.mLedgers.filter (fun e => e.1 != hash) }

/-- The registry after the object under `hash` went from its state to `acq`. -/
def store {M : Type} (reg : LedgerAcquireMaster M) (hash : Hash) (acq : LedgerAcquire M) :
    LedgerAcquireMaster M :=
  { reg with
    mLedgers := reg.mLedgers.map (fun e => if e.1 == hash then (e.1, e.2.1, acq) else e) }

/-- The `for` loop of `gotLedgerData`: the two lists it builds, or `none` when it
returns false at a node that lacks its id or its data. The function `mkNode` is the
constructor `SHAMapNode(data, size)`. -/
def assemble (mkNode : Blob → SHAMapNode) :
    List TMLedgerNode → Option (List SHAMapNode × List Blob)
  | [] => some ([], [])
  | node :: rest =>
    match node.nodeid, node.nodedata with
    | some id, some data =>
      match assemble mkNode rest with
      | some r => some (mkNode id :: r.1, data :: r.2)
      | none => none
    | _, _ => none

/-- The function `LedgerAcquireMaster::gotLedgerData`: its result and the registry
afterwards. -/
def gotLedgerData {M : Type} (env : Env M) (mkNode : Blob → SHAMapNode)
    (alive : PeerId → Bool) (reg : LedgerAcquireMaster M) (packet : TMLedgerData)
    (peer : Option PeerId) : Option (Bool × LedgerAcquireMaster M) :=
  if packet.ledgerhash.length != 32 then some (false, reg)
  else
    let hash := toHash packet.ledgerhash
    match reg.mLedgers.lookup hash with
    | none => some (false, reg)
    | some entry =>
      match packet.type with
      | some LedgerInfoType.liBASE =>
        match packet.nodes with
        | [node] =>
          (takeBase env alive entry.2 (node.nodedata.getD []) peer).map
            (fun r => (r.1, store reg hash r.2))
        | _ => some (false, reg)
      | some itype =>
        if packet.nodes.length ≤ 0 then some (false, reg)
        else
          match assemble mkNode packet.nodes with
          | none => some (false, reg)
          | some lists =>
            if itype = LedgerInfoType.liTX_NODE then
              (takeTxNode env alive entry.2 lists.1 lists.2 peer).map
                (fun r => (r.1, store reg hash r.2))
            else
              (takeAsNode env alive entry.2 lists.1 lists.2 peer).map
                (fun r => (r.1, store reg hash r.2))
      | none => some (false, reg)

/-- A call of a member function of the registry from outside. -/
inductive MasterOp where
  | findCreate (hash : Hash)
  | find (hash : Hash)
  | hasLedger (hash : Hash)
  | dropLedger (hash : Hash)
  | gotLedgerData (packet : TMLedgerData) (peer : Option PeerId)
  deriving DecidableEq, Repr

/-- The registry after one call, made while the live peers are those of `alive`. -/
def applyMasterOp {M : Type} (env : Env M) (mkNode : Blob → SHAMapNode)
    (alive : PeerId → Bool) (reg : LedgerAcquireMaster M) :
    MasterOp → Option (LedgerAcquireMaster M)
  | MasterOp.findCreate hash => some (findCreate reg hash).2
  | MasterOp.find hash => some (find reg hash).2
  | MasterOp.hasLedger hash => some (hasLedger reg hash).2
  | MasterOp.dropLedger hash => some (dropLedger reg hash)
  | MasterOp.gotLedgerData packet peer =>
    (gotLedgerData env mkNode alive reg packet peer).map (fun r => r.2)

/-- The registry after a sequence of calls. -/
def runMaster {M : Type} (env : Env M) (mkNode : Blob → SHAMapNode)
    (reg : LedgerAcquireMaster M) :
    List ((PeerId → Bool) × MasterOp) → Option (LedgerAcquireMaster M)
  | [] => some reg
  | c :: cs =>
    match applyMasterOp env mkNode c.1 reg c.2 with
    | none => none
    | some reg1 => runMaster env mkNode reg1 cs

/-- Whether a call is `dropLedger` of the hash. -/
def MasterOp.isDrop (hash : Hash) : MasterOp → Bool
  | MasterOp.dropLedger h => h == hash
  | _ => false

/-- The registry without an entry. -/
def LedgerAcquireMaster.empty {M : Type} : LedgerAcquireMaster M :=
  { mLedgers := [], constructed := 0 }

/-- The sample constructor of a node id from its raw form: the first byte. -/
def sampleMkNode : Blob → SHAMapNode := fun raw => raw.headD 0

/-- The 32 bytes of the hash `1`. -/
def hashOneBytes : Blob := List.replicate 31 0 ++ [1]

/-! ## More predicates used in the statements -/

/-- The type of the request, when the event is a packet handed to a peer. -/
def Event.sendType : Event → Option LedgerInfoType
  | Event.sendPacket _ msg => some msg.itype
  | _ => none

/-- What `trigger` and the functions it calls leave as it is: the target hash, the
timeout counter, the progress flag, the flag of the base and the hash of the ledger
held; and, while there is no base, the flags of the two trees. -/
def Frame {M : Type} (s t : LedgerAcquire M) : Prop :=
  t.mHash = s.mHash ∧ t.mTimeouts = s.mTimeouts ∧ t.mProgress = s.mProgress ∧
    t.mHaveBase = s.mHaveBase ∧
    t.mLedger.map (fun l => l.hash) = s.mLedger.map (fun l => l.hash) ∧
    (s.mHaveBase = false →
      t.mHaveTransactions = s.mHaveTransactions ∧ t.mHaveState = s.mHaveState)

/-- The invariant of an acquisition: a tree is only held with the base, the base is
held exactly when the ledger is there, and the ledger has the target hash. -/
def Sound {M : Type} (s : LedgerAcquire M) : Prop :=
  (s.mHaveTransactions = true ∨ s.mHaveState = true → s.mHaveBase = true) ∧
    s.mHaveBase = s.mLedger.isSome ∧
    ∀ ledger, s.mLedger = some ledger → ledger.hash = s.mHash

/-- How a block of `trigger` called with the peer `p` is left: either by `return` right
after one packet was handed to `p`, or by going on with nothing sent; the peer list
is as before. -/
def OneSend {M : Type} (p : PeerId) (s : LedgerAcquire M) : Flow (LedgerAcquire M) → Prop
  | Flow.ret t => (∃ msg, t.out = s.out ++ [Event.sendPacket p msg]) ∧ t.mPeers = s.mPeers
  | Flow.next t => t.out = s.out ∧ t.mPeers = s.mPeers
  | Flow.fault => True

/-- How a block of `trigger` called without a peer is left: never by `return`; the
flag of the base is kept and at most one packet was handed out, a request of the
type `ty`. -/
def NoReturn {M : Type} (ty : LedgerInfoType) (s : LedgerAcquire M) :
    Flow (LedgerAcquire M) → Prop
  | Flow.ret _ => False
  | Flow.next t =>
    t.mHaveBase = s.mHaveBase ∧
      (t.out = s.out ∨ ∃ q msg, msg.itype = ty ∧ t.out = s.out ++ [Event.sendPacket q msg])
  | Flow.fault => True

/-- The acquisition of ledger `1` with peer `10` that holds the base and whose two
trees have no root yet. -/
def needRootsState : LedgerAcquire SampleMap :=
  { mHash := 1, mTimerInterval := 2, mTimeouts := 0, mComplete := false, mFailed := false,
    mProgress := true, mPeers := [10],
    mLedger := some
      { hash := 1, transHash := 7, accountHash := 9, ledgerSeq := 3, acquiring := true,
        transactionMap := SampleMap.empty, accountStateMap := SampleMap.empty },
    mHaveBase := true, mHaveState := false, mHaveTransactions := false, mOnComplete := [],
    out := [] }

/-! ## Lemmas on `trigger` -/


/-- Nothing changed: everything is kept. -/
theorem Kept.rfl_ {M : Type} (peer : Option PeerId) (s : LedgerAcquire M) : Kept peer s s :=
  ⟨rfl, rfl, fun _ => rfl⟩

/-- Keeping composes. -/
theorem Kept.trans_ {M : Type} {peer : Option PeerId} {s t u : LedgerAcquire M}
    (h1 : Kept peer s t) (h2 : Kept peer t u) : Kept peer s u :=
  ⟨h2.1.trans h1.1, h2.2.1.trans h1.2.1, fun h => (h2.2.2 h).trans (h1.2.2 h)⟩

/-- A property of the way a block is left may be weakened. -/
theorem Flow.All.imp {α : Type} {P Q : α → Prop} (h : ∀ a, P a → Q a) :
    ∀ {f : Flow α}, Flow.All P f → Flow.All Q f
  | Flow.ret _, hp => h _ hp
  | Flow.next _, hp => h _ hp
  | Flow.fault, _ => trivial

/-- The function `sendRequest(tmGL)` changes the peer list and the output only. -/
theorem sendRequest_kept {M : Type} (alive : PeerId → Bool) (s : LedgerAcquire M) (msg : TMGetLedger) :
    Kept none s (sendRequest alive s msg) := by
  unfold sendRequest
  split
  · exact Kept.rfl_ _ _
  · split <;> exact ⟨rfl, rfl, fun h => by simp at h⟩

/-- Sending a request keeps the base flag and the ledger; to a given peer, the peer list too. -/
theorem request_kept {M : Type} (alive : PeerId → Bool) (s : LedgerAcquire M) (msg : TMGetLedger)
    (peer : Option PeerId) : Flow.All (Kept peer s) (request alive s msg peer) := by
  cases peer with
  | none => exact sendRequest_kept alive s msg
  | some p => exact ⟨rfl, rfl, fun _ => rfl⟩

/-- The block of the base keeps the base flag and the ledger. -/
theorem triggerBase_kept {M : Type} (alive : PeerId → Bool) (s : LedgerAcquire M) (peer : Option PeerId) :
    Flow.All (Kept peer s) (triggerBase alive s peer) := by
  unfold triggerBase
  split
  · exact request_kept alive s _ peer
  · exact Kept.rfl_ _ _

/-- The block of the transaction tree keeps the base flag and the presence of the ledger. -/
theorem triggerTx_kept {M : Type} (env : Env M) (alive : PeerId → Bool) (s : LedgerAcquire M)
    (peer : Option PeerId) : Flow.All (Kept peer s) (triggerTx env alive s peer) := by
  unfold triggerTx
  split
  · split
    · trivial
    · rename_i ledger hl
      split
      · exact request_kept alive s _ peer
      · have hk : Kept peer s { s with mLedger := some { ledger with
            transactionMap := (env.getMissingNodes ledger.transactionMap 128).2 } } :=
          ⟨rfl, by simp [hl], fun _ => rfl⟩
        dsimp only
        split
        · split
          · exact ⟨hk.1, hk.2.1, hk.2.2⟩
          · split
            · exact ⟨hk.1, hk.2.1, hk.2.2⟩
            · exact ⟨hk.1, hk.2.1, hk.2.2⟩
        · exact (request_kept alive _ _ peer).imp (fun _ h => hk.trans_ h)
  · exact Kept.rfl_ _ _

/-- The block of the account state tree keeps the base flag and the presence of the ledger. -/
theorem triggerAs_kept {M : Type} (env : Env M) (alive : PeerId → Bool) (s : LedgerAcquire M)
    (peer : Option PeerId) : Flow.All (Kept peer s) (triggerAs env alive s peer) := by
  unfold triggerAs
  split
  · split
    · trivial
    · rename_i ledger hl
      split
      · exact request_kept alive s _ peer
      · have hk : Kept peer s { s with mLedger := some { ledger with
            accountStateMap := (env.getMissingNodes ledger.accountStateMap 128).2 } } :=
          ⟨rfl, by simp [hl], fun _ => rfl⟩
        dsimp only
        split
        · split
          · exact ⟨hk.1, hk.2.1, hk.2.2⟩
          · split
            · exact ⟨hk.1, hk.2.1, hk.2.2⟩
            · exact ⟨hk.1, hk.2.1, hk.2.2⟩
        · exact (request_kept alive _ _ peer).imp (fun _ h => hk.trans_ h)
  · exact Kept.rfl_ _ _

/-- The last statement of `trigger` keeps the base flag, the ledger and the peer list. -/
theorem triggerEnd_kept {M : Type} (peer : Option PeerId) (s : LedgerAcquire M) :
    Kept peer s (triggerEnd s) := by
  unfold triggerEnd done setComplete resetTimer
  split
  · split <;> exact ⟨rfl, rfl, fun _ => rfl⟩
  · exact ⟨rfl, rfl, fun _ => rfl⟩

/-- A state reached by steps that keep the base flag and the ledger has its ledger. -/
theorem HasLedger.kept {M : Type} {peer : Option PeerId} {s t : LedgerAcquire M}
    (h : HasLedger s) (k : Kept peer s t) : HasLedger t := by
  intro hb
  rw [k.2.1]
  exact h (k.1 ▸ hb)

/-- The assertion in the block of the transaction tree holds when the ledger is there. -/
theorem triggerTx_ne_fault {M : Type} (env : Env M) (alive : PeerId → Bool) (s : LedgerAcquire M)
    (peer : Option PeerId) (h : HasLedger s) : triggerTx env alive s peer ≠ Flow.fault := by
  unfold triggerTx
  split
  · rename_i hc
    have hb : s.mHaveBase = true := by
      simp only [Bool.and_eq_true] at hc
      exact hc.1
    have hs := h hb
    split
    · rename_i hn
      simp [hn] at hs
    · split
      · cases peer <;> simp [request]
      · dsimp only
        split
        · split
          · simp
          · simp
        · cases peer <;> simp [request]
  · simp

/-- The assertion in the block of the account state tree holds when the ledger is there. -/
theorem triggerAs_ne_fault {M : Type} (env : Env M) (alive : PeerId → Bool) (s : LedgerAcquire M)
    (peer : Option PeerId) (h : HasLedger s) : triggerAs env alive s peer ≠ Flow.fault := by
  unfold triggerAs
  split
  · rename_i hc
    have hb : s.mHaveBase = true := by
      simp only [Bool.and_eq_true] at hc
      exact hc.1
    have hs := h hb
    split
    · rename_i hn
      simp [hn] at hs
    · split
      · cases peer <;> simp [request]
      · dsimp only
        split
        · split
          · simp
          · simp
        · cases peer <;> simp [request]
  · simp

/-- The block of the base has no assertion. -/
theorem triggerBase_ne_fault {M : Type} (alive : PeerId → Bool) (s : LedgerAcquire M)
    (peer : Option PeerId) : triggerBase alive s peer ≠ Flow.fault := by
  unfold triggerBase
  split
  · cases peer <;> simp [request]
  · simp

/-- A call of `trigger` on a state that has its ledger returns, and keeps the flag of
the base, the presence of the ledger and, when a peer is given, the peer list. -/
theorem trigger_returns {M : Type} (env : Env M) (alive : PeerId → Bool) (s : LedgerAcquire M)
    (peer : Option PeerId) (h : HasLedger s) :
    ∃ t, trigger env alive s peer = some t ∧ Kept peer s t := by
  unfold trigger
  split
  · exact ⟨s, rfl, Kept.rfl_ _ _⟩
  · have kb := triggerBase_kept alive s peer
    have nb := triggerBase_ne_fault alive s peer
    cases hb : triggerBase alive s peer with
    | fault => exact absurd hb nb
    | ret s1 =>
      rw [hb] at kb
      exact ⟨s1, rfl, kb⟩
    | next s1 =>
      rw [hb] at kb
      have h1 : HasLedger s1 := h.kept kb
      have kt := triggerTx_kept env alive s1 peer
      have nt := triggerTx_ne_fault env alive s1 peer h1
      cases ht : triggerTx env alive s1 peer with
      | fault => exact absurd ht nt
      | ret s2 =>
        rw [ht] at kt
        exact ⟨s2, by simp only [ht], Kept.trans_ kb kt⟩
      | next s2 =>
        rw [ht] at kt
        have h2 : HasLedger s2 := h1.kept kt
        have ka := triggerAs_kept env alive s2 peer
        have na := triggerAs_ne_fault env alive s2 peer h2
        cases ha : triggerAs env alive s2 peer with
        | fault => exact absurd ha na
        | ret s3 =>
          rw [ha] at ka
          exact ⟨s3, by simp only [ht, ha], (Kept.trans_ kb kt).trans_ ka⟩
        | next s3 =>
          rw [ha] at ka
          exact ⟨triggerEnd s3, by simp only [ht, ha],
            ((Kept.trans_ kb kt).trans_ ka).trans_ (triggerEnd_kept peer s3)⟩

/-- Whatever `trigger` returns keeps the flag of the base, the presence of the ledger
and, when a peer is given, the peer list. -/
theorem trigger_kept {M : Type} (env : Env M) (alive : PeerId → Bool) (s t : LedgerAcquire M)
    (peer : Option PeerId) (h : trigger env alive s peer = some t) : Kept peer s t := by
  unfold trigger at h
  split at h
  · cases h
    exact Kept.rfl_ _ _
  · have kb := triggerBase_kept alive s peer
    cases hb : triggerBase alive s peer with
    | fault => simp [hb] at h
    | ret s1 =>
      rw [hb] at kb
      simp only [hb, Option.some.injEq] at h
      exact h ▸ kb
    | next s1 =>
      rw [hb] at kb
      simp only [hb] at h
      have kt := triggerTx_kept env alive s1 peer
      cases ht : triggerTx env alive s1 peer with
      | fault => simp [ht] at h
      | ret s2 =>
        rw [ht] at kt
        simp only [ht, Option.some.injEq] at h
        exact h ▸ Kept.trans_ kb kt
      | next s2 =>
        rw [ht] at kt
        simp only [ht] at h
        have ka := triggerAs_kept env alive s2 peer
        cases ha : triggerAs env alive s2 peer with
        | fault => simp [ha] at h
        | ret s3 =>
          rw [ha] at ka
          simp only [ha, Option.some.injEq] at h
          exact h ▸ (Kept.trans_ kb kt).trans_ ka
        | next s3 =>
          rw [ha] at ka
          simp only [ha, Option.some.injEq] at h
          exact h ▸ ((Kept.trans_ kb kt).trans_ ka).trans_ (triggerEnd_kept peer s3)

/-! ## The claims -/

/-- Claim C1 (evaluated at its failing input). The claim is that `complete` holds
exactly when `have_base`, `have_tx` and `have_state` all hold. On a fresh acquisition
of ledger `1`, `takeBase` with a header of hash `1` whose two tree roots are zero,
followed by a timer tick and a call of `trigger`, leaves the three have-flags true
and `complete` false. -/
theorem takeBase_zero_roots_never_complete :
    (run sampleEnv (LedgerAcquire.new 1)
        [(allAlive, Op.takeBase [1, 0, 0, 3] none), (allAlive, Op.timer),
         (allAlive, Op.trigger none)]).map
      (fun s => (s.mHaveBase, s.mHaveTransactions, s.mHaveState, s.mComplete))
      = some (true, true, true, false) := by
  decide

/-- Claim C2 (what the code does on the inputs of the claim). For an acquisition
without a base that is neither complete nor failed, and a header whose hash is the
target hash and whose two tree roots are zero, `takeBase` returns true and sets
`have_base`, `have_tx` and `have_state`; it hands no packet to any peer and only arms
the timer; but it leaves `complete` false and invokes no completion function, where
the claim says `complete = true`. -/
theorem takeBase_zero_roots_leaves_incomplete {M : Type} (env : Env M) (alive : PeerId → Bool)
    (s : LedgerAcquire M) (data : Blob) (peer : Option PeerId)
    (hb : s.mHaveBase = false) (hc : s.mComplete = false) (hf : s.mFailed = false)
    (hh : (env.parseLedger data).hash = s.mHash)
    (ht : (env.parseLedger data).transHash = 0)
    (ha : (env.parseLedger data).accountHash = 0) :
    takeBase env alive s data peer =
      some (true,
        { s with
          mLedger := some { env.parseLedger data with acquiring := true }
          mHaveBase := true
          mProgress := true
          mHaveTransactions := true
          mHaveState := true
          mComplete := false
          out := s.out ++ [Event.resetTimer] }) := by
  simp [takeBase, hb, hc, hf, hh, ht, ha, progress, trigger, triggerBase, triggerTx, triggerAs,
    triggerEnd, resetTimer]

/-- Claim C2 at a concrete input: a fresh acquisition of ledger `1` with peer `10` in
its list and the completion function `5` registered, given the header `[1, 0, 0, 3]`. -/
theorem takeBase_zero_roots_leaves_incomplete_witness :
    takeBase sampleEnv allAlive
        { (LedgerAcquire.new 1 : LedgerAcquire SampleMap) with mPeers := [10], mOnComplete := [5] }
        [1, 0, 0, 3] none =
      some (true,
        { (LedgerAcquire.new 1 : LedgerAcquire SampleMap) with
          mPeers := [10]
          mOnComplete := [5]
          mLedger := some { sampleEnv.parseLedger [1, 0, 0, 3] with acquiring := true }
          mHaveBase := true
          mProgress := true
          mHaveTransactions := true
          mHaveState := true
          mComplete := false
          out := [Event.resetTimer] }) :=
  takeBase_zero_roots_leaves_incomplete sampleEnv allAlive
    { (LedgerAcquire.new 1 : LedgerAcquire SampleMap) with mPeers := [10], mOnComplete := [5] }
    [1, 0, 0, 3] none rfl rfl rfl rfl rfl rfl

/-- Claim C3 (evaluated at its failing input). The claim is that `complete` and
`failed` are never both true. After `takeBase` with a header whose transaction root
is `7` and whose state root is zero, the root `[7, 0]` of a broken transaction tree
makes `trigger` set `failed`; the same answer arriving once more makes `takeTxNode`
set `have_tx` and `complete`: both flags are then true. -/
theorem takeTxNode_after_failure_sets_complete :
    (run sampleEnv (LedgerAcquire.new 1)
        [(allAlive, Op.takeBase [1, 7, 0, 3] none),
         (allAlive, Op.takeTxNode [0] [[7, 0]] none),
         (allAlive, Op.takeTxNode [0] [[7, 0]] none)]).map
      (fun s => (s.mComplete, s.mFailed)) = some (true, true) := by
  decide

/-- Claim C4 (evaluated at its failing input). The claim is that every completion
function registered before the completing call has been invoked exactly once. With
the function `5` registered, then the header, the single node of the transaction
tree and the single node of the account state tree, the acquisition is complete and
not failed, the function is still registered, and it was never invoked: not by the
completing `takeAsNode`, and not by the timer tick that follows. -/
theorem takeAsNode_completes_without_callback :
    (run sampleEnv (LedgerAcquire.new 1)
        [(allAlive, Op.addOnComplete 5),
         (allAlive, Op.takeBase [1, 7, 9, 3] none),
         (allAlive, Op.takeTxNode [0] [[7, 1]] none),
         (allAlive, Op.takeAsNode [0] [[9, 1]] none),
         (allAlive, Op.timer)]).map
      (fun s => (flags s, s.mOnComplete, s.out.countP (Event.isCallback 5)))
      = some ((true, true, true, true, false), [5], 0) := by
  decide

/-- Claim C5 (evaluated at its failing input). The claim is that no request is
emitted once `failed` is set, also not by the rest of the `trigger` call that set it.
The state `brokenTxState` is the one with which `takeTxNode` calls `trigger` in the run
below. In that call the block of the transaction tree sets `failed` and sends
nothing, and the block of the account state tree, which follows it, hands the request
for the root of the account state tree to peer `10`. -/
theorem trigger_sends_after_failed :
    ((run sampleEnv (LedgerAcquire.new 1)
        [(allAlive, Op.peerHas 10), (allAlive, Op.takeBase [1, 7, 9, 3] none)]).bind
      (fun s => takeTxNode sampleEnv allAlive s [0] [[7, 0]] none)
      = (trigger sampleEnv allAlive brokenTxState none).map (fun t => (true, progress t)))
    ∧ triggerBase allAlive brokenTxState none = Flow.next brokenTxState
    ∧ triggerTx sampleEnv allAlive brokenTxState none = Flow.next brokenTxFailed
    ∧ brokenTxFailed.mFailed = true
    ∧ brokenTxFailed.out = brokenTxState.out
    ∧ triggerAs sampleEnv allAlive brokenTxFailed none
        = Flow.next (sendRequestTo brokenTxFailed asRootRequest 10)
    ∧ trigger sampleEnv allAlive brokenTxState none
        = some (done (sendRequestTo brokenTxFailed asRootRequest 10)) := by
  decide

/-- Claim C6 (evaluated at its failing input). The claim is that in a state with
`complete` or `failed` set no call changes a flag. The state `failedAsState` is reached
by `takeBase` and `takeAsNode` and has `failed` set; `takeAsNode` with the same
answer once more returns true and changes `have_state` and `complete` from false to
true. -/
theorem takeAsNode_changes_flags_after_failure :
    run sampleEnv (LedgerAcquire.new 1)
        [(allAlive, Op.takeBase [1, 0, 9, 3] none),
         (allAlive, Op.takeAsNode [0] [[9, 0]] none)] = some failedAsState
    ∧ flags failedAsState = (true, true, false, false, true)
    ∧ (takeAsNode sampleEnv allAlive failedAsState [0] [[9, 0]] none).map
        (fun r => (r.1, flags r.2)) = some (true, (true, true, true, true, true)) := by
  decide

/-- The peer the loop of `sendRequest(tmGL)` sends to is the first live one. -/
theorem sendRequestLoop_snd (alive : PeerId → Bool) (l : List PeerId) :
    (sendRequestLoop alive l).2 = l.find? alive := by
  induction l with
  | nil => rfl
  | cons p rest ih =>
    unfold sendRequestLoop
    cases hp : alive p <;> simp [hp, ih, List.find?_cons]

/-- What `sendRequest(tmGL)` appends to the output: the packet for the first live
peer, if there is one. -/
theorem sendRequest_out {M : Type} (alive : PeerId → Bool) (s : LedgerAcquire M)
    (msg : TMGetLedger) :
    (sendRequest alive s msg).out =
      s.out ++ (match s.mPeers.find? alive with
                | some q => [Event.sendPacket q msg]
                | none => []) := by
  unfold sendRequest
  split
  · rename_i he
    have : s.mPeers = [] := by simpa using he
    simp [this]
  · have h2 := sendRequestLoop_snd alive s.mPeers
    split
    · rename_i l p hl
      rw [hl] at h2
      simp [← h2]
    · rename_i l hl
      rw [hl] at h2
      simp [← h2]

/-- The function `sendRequest(tmGL)` changes no flag and not the ledger. -/
theorem sendRequest_flags {M : Type} (alive : PeerId → Bool) (s : LedgerAcquire M)
    (msg : TMGetLedger) :
    (sendRequest alive s msg).mHaveBase = s.mHaveBase ∧
    (sendRequest alive s msg).mHaveTransactions = s.mHaveTransactions ∧
    (sendRequest alive s msg).mHaveState = s.mHaveState ∧
    (sendRequest alive s msg).mComplete = s.mComplete ∧
    (sendRequest alive s msg).mFailed = s.mFailed ∧
    (sendRequest alive s msg).mLedger = s.mLedger := by
  unfold sendRequest
  split
  · exact ⟨rfl, rfl, rfl, rfl, rfl, rfl⟩
  · split <;> exact ⟨rfl, rfl, rfl, rfl, rfl, rfl⟩

/-- A call of `trigger` on an acquisition without a base that is neither complete nor
failed: with a peer the BASE request goes to that peer and the call returns; without
one the request goes through `sendRequest(tmGL)` and the timer is armed. -/
theorem trigger_without_base {M : Type} (env : Env M) (alive : PeerId → Bool)
    (s : LedgerAcquire M) (hb : s.mHaveBase = false) (hc : s.mComplete = false)
    (hf : s.mFailed = false) :
    (∀ p : PeerId, trigger env alive s (some p) =
      some (sendRequestTo s (baseRequest s.mHash) p)) ∧
    trigger env alive s none = some (resetTimer (sendRequest alive s (baseRequest s.mHash))) := by
  obtain ⟨h1, _, _, h4, h5, _⟩ := sendRequest_flags alive s (baseRequest s.mHash)
  constructor
  · intro p
    simp [trigger, triggerBase, request, hb, hc, hf]
  · simp [trigger, triggerBase, request, triggerTx, triggerAs, triggerEnd, hb, hc, hf,
      h1, h4, h5]

/-- Claim C7 (amended). For an acquisition without a base and a blob whose parsed
hash differs from the target hash, `takeBase` returns false and changes nothing but
the ledger, which it leaves absent: every flag and the output are as before. When the
acquisition is neither complete nor failed, a following `trigger` with a peer hands
the BASE request to that peer and returns, and a following `trigger` without a peer
hands the BASE request to the first live peer of the list when there is one, hands
out no packet when there is none, and arms the timer. -/
theorem takeBase_mismatch_then_trigger {M : Type} (env : Env M) (alive alive2 : PeerId → Bool)
    (s : LedgerAcquire M) (data : Blob) (peer : Option PeerId)
    (hb : s.mHaveBase = false) (hh : (env.parseLedger data).hash ≠ s.mHash) :
    takeBase env alive s data peer = some (false, { s with mLedger := none }) ∧
    (s.mComplete = false → s.mFailed = false →
      (∀ p : PeerId, trigger env alive2 { s with mLedger := none } (some p) =
        some { s with mLedger := none,
                      out := s.out ++ [Event.sendPacket p (baseRequest s.mHash)] }) ∧
      (∃ t, trigger env alive2 { s with mLedger := none } none = some t ∧
        flags t = flags s ∧ t.mLedger = none ∧
        t.out = s.out ++ (match s.mPeers.find? alive2 with
                          | some q => [Event.sendPacket q (baseRequest s.mHash)]
                          | none => []) ++ [Event.resetTimer])) := by
  refine ⟨by simp [takeBase, hb, hh], fun hc hf => ?_⟩
  have key := trigger_without_base env alive2 ({ s with mLedger := none } : LedgerAcquire M)
    hb hc hf
  obtain ⟨h1, h2, h3, h4, h5, h6⟩ :=
    sendRequest_flags alive2 ({ s with mLedger := none } : LedgerAcquire M) (baseRequest s.mHash)
  have ho := sendRequest_out alive2 ({ s with mLedger := none } : LedgerAcquire M)
    (baseRequest s.mHash)
  refine ⟨fun p => ?_, _, key.2, ?_, ?_, ?_⟩
  · rw [key.1 p]
    rfl
  · simp only [flags, resetTimer, h1, h2, h3, h4, h5]
  · simp only [resetTimer, h6]
  · simp only [resetTimer, ho]

/-- Claim C7 (as stated, refuted). Two acquisitions of ledger `1` without a base are
given the header `[2, 0, 0, 3]`, whose hash is `2`. On the fresh one, which has no
peer, `takeBase` returns false and the following `trigger` without a peer hands out
no packet. On the one that was marked complete by `done`, `takeBase` returns false
and the following `trigger` with peer `10` hands out no packet either. -/
theorem takeBase_mismatch_then_trigger_silent :
    ((takeBase sampleEnv allAlive (LedgerAcquire.new 1) [2, 0, 0, 3] none).bind
        (fun r => (trigger sampleEnv allAlive r.2 none).map
          (fun t => (r.1, t.out.any Event.isSend))) = some (false, false))
    ∧ ((takeBase sampleEnv allAlive (done (LedgerAcquire.new 1)) [2, 0, 0, 3] none).bind
        (fun r => (trigger sampleEnv allAlive r.2 (some 10)).map
          (fun t => (r.1, t.out.any Event.isSend))) = some (false, false)) := by
  decide

/-- Claim C7 (amended) at a concrete input: the acquisition of ledger `1` whose peer
list is `[11, 10]`, of which only `10` is alive, given the header `[2, 0, 0, 3]`. -/
theorem takeBase_mismatch_then_trigger_witness :
    takeBase sampleEnv allAlive
        { (LedgerAcquire.new 1 : LedgerAcquire SampleMap) with mPeers := [11, 10] }
        [2, 0, 0, 3] none
      = some (false, { (LedgerAcquire.new 1 : LedgerAcquire SampleMap) with mPeers := [11, 10] })
    ∧ trigger sampleEnv (fun p => p == 10)
        { (LedgerAcquire.new 1 : LedgerAcquire SampleMap) with mPeers := [11, 10] } (some 12)
      = some { (LedgerAcquire.new 1 : LedgerAcquire SampleMap) with
                mPeers := [11, 10], out := [Event.sendPacket 12 (baseRequest 1)] } :=
  have h := takeBase_mismatch_then_trigger sampleEnv allAlive (fun p => p == 10)
    { (LedgerAcquire.new 1 : LedgerAcquire SampleMap) with mPeers := [11, 10] }
    [2, 0, 0, 3] none rfl (by decide)
  ⟨h.1, (h.2 rfl rfl).1 12⟩

/-- A header with the target hash is accepted: `takeBase` returns true and the base
is held afterwards. -/
theorem takeBase_accepts {M : Type} (env : Env M) (alive : PeerId → Bool)
    (s : LedgerAcquire M) (data : Blob) (peer : Option PeerId)
    (hb : s.mHaveBase = false) (hh : (env.parseLedger data).hash = s.mHash) :
    ∃ t, takeBase env alive s data peer = some (true, t) ∧ t.mHaveBase = true ∧
      t.mLedger.isSome = true := by
  have hX : ∀ X : LedgerAcquire M, X.mHaveBase = true → X.mLedger.isSome = true →
      ∃ t, (trigger env alive X peer).map (fun t => (true, t)) = some (true, t) ∧
        t.mHaveBase = true ∧ t.mLedger.isSome = true := by
    intro X hX1 hX2
    obtain ⟨t, ht, hk⟩ := trigger_returns env alive X peer (fun _ => hX2)
    exact ⟨t, by simp [ht], hk.1.trans hX1, hk.2.1.trans hX2⟩
  unfold takeBase
  simp only [hb, Bool.false_eq_true, if_false, hh, bne_self_eq_false]
  apply hX
  · split <;> split <;> simp [progress]
  · rfl

/-- Claim C8. For an acquisition that has its base, `takeBase` returns true and
leaves the whole state as it is, whatever the blob and whatever the parser would make
of it: no flag, not the ledger and not the output change. Hence, for a blob whose
parsed hash is the target hash, `takeBase` returns true and a second `takeBase` with
the same blob returns true and leaves the state in which the first call left it. -/
theorem takeBase_with_base_is_noop {M : Type} (env : Env M) (alive alive2 : PeerId → Bool)
    (s : LedgerAcquire M) (data : Blob) (peer peer2 : Option PeerId) :
    (s.mHaveBase = true → takeBase env alive s data peer = some (true, s)) ∧
    ((env.parseLedger data).hash = s.mHash →
      ∃ s1, takeBase env alive s data peer = some (true, s1) ∧
        takeBase env alive2 s1 data peer2 = some (true, s1)) := by
  have first : ∀ (a : PeerId → Bool) (u : LedgerAcquire M) (q : Option PeerId),
      u.mHaveBase = true → takeBase env a u data q = some (true, u) := by
    intro a u q hu
    simp [takeBase, hu]
  refine ⟨first alive s peer, fun hh => ?_⟩
  cases hb : s.mHaveBase with
  | true => exact ⟨s, first alive s peer hb, first alive2 s peer2 hb⟩
  | false =>
    obtain ⟨t, ht, htb, _⟩ := takeBase_accepts env alive s data peer hb hh
    exact ⟨t, ht, first alive2 t peer2 htb⟩

/-- Claim C8 at concrete inputs: the failed acquisition `failedAsState`, which has
its base, is given a blob that is no header; and the fresh acquisition of ledger `1`
with peer `10` is given the header `[1, 7, 9, 3]` twice. -/
theorem takeBase_with_base_is_noop_witness :
    takeBase sampleEnv allAlive failedAsState [4, 4] none = some (true, failedAsState) ∧
    ∃ s1, takeBase sampleEnv allAlive
        { (LedgerAcquire.new 1 : LedgerAcquire SampleMap) with mPeers := [10] } [1, 7, 9, 3] none
        = some (true, s1) ∧
      takeBase sampleEnv allAlive s1 [1, 7, 9, 3] (some 10) = some (true, s1) :=
  ⟨(takeBase_with_base_is_noop sampleEnv allAlive allAlive failedAsState [4, 4] none none).1 rfl,
   (takeBase_with_base_is_noop sampleEnv allAlive allAlive
    { (LedgerAcquire.new 1 : LedgerAcquire SampleMap) with mPeers := [10] } [1, 7, 9, 3]
    none (some 10)).2 rfl⟩

/-- The loop over a batch that is made of two parts: the second part is walked from
the map the first part left, unless the first part was not added in full. -/
theorem addNodes_append {M : Type} (env : Env M) (rootHash : Hash) :
    ∀ (i1 : List SHAMapNode) (d1 : List Blob) (m : M) (i2 : List SHAMapNode) (d2 : List Blob),
      i1.length = d1.length →
      addNodes env rootHash m (i1 ++ i2) (d1 ++ d2) =
        match addNodes env rootHash m i1 d1 with
        | Walk.added m1 => addNodes env rootHash m1 i2 d2
        | w => w
  | [], [], m, i2, d2, _ => by simp [addNodes]
  | [], _ :: _, _, _, _, h => by simp at h
  | _ :: _, [], _, _, _, h => by simp at h
  | id :: i1, d :: d1, m, i2, d2, h => by
    have hl : i1.length = d1.length := by simpa using h
    simp only [List.cons_append, addNodes]
    cases hr : (addNode env rootHash m id d).1 with
    | false => simp
    | true => simpa using addNodes_append env rootHash i1 d1 _ i2 d2 hl

/-- A batch whose first part is added and whose next node is refused: the loop is
left by `return false`, with the map the refused call left. -/
theorem addNodes_refused {M : Type} (env : Env M) (rootHash : Hash) (m m1 m2 : M)
    (i1 i2 : List SHAMapNode) (id : SHAMapNode) (d1 d2 : List Blob) (d : Blob)
    (hl : i1.length = d1.length)
    (h1 : addNodes env rootHash m i1 d1 = Walk.added m1)
    (h2 : addNode env rootHash m1 id d = (false, m2)) :
    addNodes env rootHash m (i1 ++ id :: i2) (d1 ++ d :: d2) = Walk.refused m2 := by
  rw [addNodes_append env rootHash i1 d1 m (id :: i2) (d :: d2) hl, h1]
  simp [addNodes, h2]

/-- Claim C9. When `have_base` is false, `takeTxNode` and `takeAsNode` return false
and leave the whole state as it is. When the base is held and, after the nodes before
it were added, `addRootNode` or `addKnownNode` refuses a node of the batch, they
return false and the state afterwards is the state before with the tree inside the
ledger replaced by what the refused call left: `have_base`, `have_tx`, `have_state`,
`complete`, `failed` and `progress` are as before and nothing is added to the output,
so no request is emitted. -/
theorem takeNode_refused_changes_no_flag {M : Type} (env : Env M) (alive : PeerId → Bool)
    (s : LedgerAcquire M) (peer : Option PeerId) :
    (s.mHaveBase = false → ∀ (ids : List SHAMapNode) (data : List Blob),
      takeTxNode env alive s ids data peer = some (false, s) ∧
      takeAsNode env alive s ids data peer = some (false, s)) ∧
    (s.mHaveBase = true → ∀ (ledger : Ledger M), s.mLedger = some ledger →
      ∀ (i1 i2 : List SHAMapNode) (id : SHAMapNode) (d1 d2 : List Blob) (d : Blob) (m1 m2 : M),
      i1.length = d1.length →
      (addNodes env ledger.transHash ledger.transactionMap i1 d1 = Walk.added m1 →
        addNode env ledger.transHash m1 id d = (false, m2) →
        takeTxNode env alive s (i1 ++ id :: i2) (d1 ++ d :: d2) peer =
          some (false, { s with mLedger := some { ledger with transactionMap := m2 } })) ∧
      (addNodes env ledger.accountHash ledger.accountStateMap i1 d1 = Walk.added m1 →
        addNode env ledger.accountHash m1 id d = (false, m2) →
        takeAsNode env alive s (i1 ++ id :: i2) (d1 ++ d :: d2) peer =
          some (false, { s with mLedger := some { ledger with accountStateMap := m2 } }))) := by
  refine ⟨fun hb ids data => by simp [takeTxNode, takeAsNode, hb], ?_⟩
  intro hb ledger hl i1 i2 id d1 d2 d m1 m2 hlen
  constructor
  · intro h1 h2
    have hw := addNodes_refused env ledger.transHash ledger.transactionMap m1 m2 i1 i2 id d1 d2 d
      hlen h1 h2
    simp [takeTxNode, hb, hl, hw]
  · intro h1 h2
    have hw := addNodes_refused env ledger.accountHash ledger.accountStateMap m1 m2 i1 i2 id
      d1 d2 d hlen h1 h2
    simp [takeAsNode, hb, hl, hw]

/-- Claim C9 at concrete inputs: the fresh acquisition of ledger `1`, which has no
base, is given a batch; and the acquisition `brokenTxState`, whose transaction tree has
a root and misses nothing, is given the root once more, which is accepted, followed
by node `4`, which is refused. -/
theorem takeNode_refused_changes_no_flag_witness :
    (takeTxNode sampleEnv allAlive (LedgerAcquire.new 1) [0] [[7, 1]] none
        = some (false, LedgerAcquire.new 1) ∧
      takeAsNode sampleEnv allAlive (LedgerAcquire.new 1) [0] [[7, 1]] none
        = some (false, LedgerAcquire.new 1)) ∧
    takeTxNode sampleEnv allAlive brokenTxState ([0] ++ 4 :: [5]) ([[7, 0]] ++ [8] :: [[8]]) none
      = some (false, brokenTxState) :=
  ⟨(takeNode_refused_changes_no_flag sampleEnv allAlive (LedgerAcquire.new 1) none).1 rfl
      [0] [[7, 1]],
   ((takeNode_refused_changes_no_flag sampleEnv allAlive brokenTxState none).2 rfl
      _ rfl [0] [5] 4 [[7, 0]] [[8]] [8] _ _ rfl).1 rfl rfl⟩

/-- The loop of `peerHas` leaves a sublist of the list; when it found no live entry
that is the same peer as `ptr`, no entry it leaves is the same peer as `ptr`. -/
theorem peerHasLoop_spec (samePeer : PeerId → PeerId → Bool) (alive : PeerId → Bool)
    (ptr : PeerId) (l : List PeerId) :
    List.Sublist (peerHasLoop samePeer alive ptr l).2 l ∧
      ((peerHasLoop samePeer alive ptr l).1 = false →
        ∀ q ∈ (peerHasLoop samePeer alive ptr l).2, samePeer q ptr = false) := by
  induction l with
  | nil => simp [peerHasLoop]
  | cons pr rest ih =>
    unfold peerHasLoop
    cases ha : alive pr with
    | false => exact ⟨by simpa using ih.1.cons pr, by simpa using ih.2⟩
    | true =>
      cases hs : samePeer pr ptr with
      | true => simp
      | false =>
        refine ⟨by simpa using ih.1.cons₂ pr, ?_⟩
        intro hf q hq
        simp only [Bool.not_true, Bool.false_eq_true, if_false, List.mem_cons] at hf hq
        rcases hq with rfl | hq
        · exact hs
        · exact ih.2 hf q hq

/-- The loop of `badPeer` leaves a sublist of the list. -/
theorem badPeerLoop_sublist (samePeer : PeerId → PeerId → Bool) (alive : PeerId → Bool)
    (ptr : PeerId) (l : List PeerId) :
    List.Sublist (badPeerLoop samePeer alive ptr l) l := by
  induction l with
  | nil => simp [badPeerLoop]
  | cons pr rest ih =>
    unfold badPeerLoop
    cases ha : alive pr with
    | false => simpa using ih.cons pr
    | true =>
      cases hs : samePeer ptr pr with
      | true => simp
      | false => simpa using ih.cons₂ pr

/-- A call of `peerHas` or `badPeer` keeps the entries of the peer list distinct. -/
theorem applyOp_distinct {M : Type} (env : Env M) (alive : PeerId → Bool)
    (s t : LedgerAcquire M) (op : Op) (hop : op.isPeerCall = true)
    (hd : Distinct env.samePeer s.mPeers) (h : applyOp env alive s op = some t) :
    Distinct env.samePeer t.mPeers := by
  cases op with
  | peerHas ptr =>
    obtain ⟨hsub, hnew⟩ := peerHasLoop_spec env.samePeer alive ptr s.mPeers
    simp only [applyOp, peerHas] at h
    split at h
    · cases h
      exact hd.sublist hsub
    · rename_i hfound
      have hk := trigger_kept env alive _ t (some ptr) h
      rw [hk.2.2 rfl]
      have hfalse : (peerHasLoop env.samePeer alive ptr s.mPeers).1 = false := by
        simpa using hfound
      exact List.pairwise_append.2
        ⟨hd.sublist hsub, List.pairwise_singleton _ _,
          fun a ha b hb => by
            rw [List.mem_singleton.1 hb]
            exact hnew hfalse a ha⟩
  | badPeer ptr =>
    simp only [applyOp, Option.some.injEq] at h
    subst h
    exact hd.sublist (badPeerLoop_sublist env.samePeer alive ptr s.mPeers)
  | takeBase _ _ => simp [Op.isPeerCall] at hop
  | takeTxNode _ _ _ => simp [Op.isPeerCall] at hop
  | takeAsNode _ _ _ => simp [Op.isPeerCall] at hop
  | trigger _ => simp [Op.isPeerCall] at hop
  | timer => simp [Op.isPeerCall] at hop
  | done => simp [Op.isPeerCall] at hop
  | addOnComplete _ => simp [Op.isPeerCall] at hop

/-- A run of `peerHas` and `badPeer` calls keeps the entries of the peer list distinct. -/
theorem run_distinct {M : Type} (env : Env M) :
    ∀ (calls : List ((PeerId → Bool) × Op)) (s t : LedgerAcquire M),
      (∀ c ∈ calls, c.2.isPeerCall = true) → Distinct env.samePeer s.mPeers →
      run env s calls = some t → Distinct env.samePeer t.mPeers
  | [], s, t, _, hd, h => by
    simp only [run, Option.some.injEq] at h
    exact h ▸ hd
  | c :: cs, s, t, hc, hd, h => by
    simp only [run] at h
    cases h1 : applyOp env c.1 s c.2 with
    | none => simp [h1] at h
    | some s1 =>
      simp only [h1] at h
      exact run_distinct env cs s1 t (fun x hx => hc x (List.mem_cons_of_mem _ hx))
        (applyOp_distinct env c.1 s s1 c.2 (hc c (List.mem_cons_self _ _)) hd h1) h

/-- A call of `peerHas` or `badPeer` on a state that has its ledger returns, in a
state that has its ledger. -/
theorem applyOp_peerCall_returns {M : Type} (env : Env M) (alive : PeerId → Bool)
    (s : LedgerAcquire M) (op : Op) (hop : op.isPeerCall = true) (hs : HasLedger s) :
    ∃ t, applyOp env alive s op = some t ∧ HasLedger t := by
  cases op with
  | peerHas ptr =>
    simp only [applyOp, peerHas]
    split
    · exact ⟨_, rfl, hs⟩
    · have h1 : HasLedger ({ s with mPeers :=
          (peerHasLoop env.samePeer alive ptr s.mPeers).2 ++ [ptr] } : LedgerAcquire M) := hs
      obtain ⟨t, ht, hk⟩ := trigger_returns env alive _ (some ptr) h1
      exact ⟨t, ht, h1.kept hk⟩
  | badPeer ptr => exact ⟨_, rfl, hs⟩
  | takeBase _ _ => simp [Op.isPeerCall] at hop
  | takeTxNode _ _ _ => simp [Op.isPeerCall] at hop
  | takeAsNode _ _ _ => simp [Op.isPeerCall] at hop
  | trigger _ => simp [Op.isPeerCall] at hop
  | timer => simp [Op.isPeerCall] at hop
  | done => simp [Op.isPeerCall] at hop
  | addOnComplete _ => simp [Op.isPeerCall] at hop

/-- A run of `peerHas` and `badPeer` calls on a state that has its ledger returns. -/
theorem run_peerCalls_returns {M : Type} (env : Env M) :
    ∀ (calls : List ((PeerId → Bool) × Op)) (s : LedgerAcquire M),
      (∀ c ∈ calls, c.2.isPeerCall = true) → HasLedger s → ∃ t, run env s calls = some t
  | [], s, _, _ => ⟨s, rfl⟩
  | c :: cs, s, hc, hs => by
    obtain ⟨s1, h1, hs1⟩ :=
      applyOp_peerCall_returns env c.1 s c.2 (hc c (List.mem_cons_self _ _)) hs
    obtain ⟨t, ht⟩ :=
      run_peerCalls_returns env cs s1 (fun x hx => hc x (List.mem_cons_of_mem _ hx)) hs1
    exact ⟨t, by simp only [run, h1, ht]⟩

/-- Claim C10. Let `samePeer` be symmetric (as it is when it is an equivalence
relation). Starting from an acquisition with an empty peer list, every sequence of
`peerHas` and `badPeer` calls, each made with the peers that are alive at its moment,
returns when the acquisition has its ledger whenever it holds the base, and in the
state it reaches no two entries of the peer list, alive or not, are the same peer.
In particular, `peerHas(p)` followed by `peerHas(q)`, with `q` the same peer as `p`
and `p` alive at the second call, leaves the list `[p]`, of size 1. -/
theorem peer_list_has_no_duplicates {M : Type} (env : Env M)
    (hsymm : ∀ a b, env.samePeer a b = true → env.samePeer b a = true)
    (s : LedgerAcquire M) (hempty : s.mPeers = []) :
    (∀ (calls : List ((PeerId → Bool) × Op)), (∀ c ∈ calls, c.2.isPeerCall = true) →
      (HasLedger s → ∃ t, run env s calls = some t) ∧
      ∀ t, run env s calls = some t →
        ∀ (i j : Nat) (hi : i < t.mPeers.length) (hj : j < t.mPeers.length), i ≠ j →
          env.samePeer t.mPeers[i] t.mPeers[j] = false) ∧
    (∀ (alive1 alive2 : PeerId → Bool) (p q : PeerId), HasLedger s →
      env.samePeer p q = true → alive2 p = true →
      ∃ s1 s2, peerHas env alive1 s p = some s1 ∧ peerHas env alive2 s1 q = some s2 ∧
        s2.mPeers = [p] ∧ s2.mPeers.length = 1) := by
  constructor
  · intro calls hc
    refine ⟨run_peerCalls_returns env calls s hc, ?_⟩
    intro t ht i j hi hj hij
    have hd : Distinct env.samePeer t.mPeers :=
      run_distinct env calls s t hc (by rw [hempty]; exact List.Pairwise.nil) ht
    have hp := List.pairwise_iff_getElem.1 hd
    rcases Nat.lt_or_gt_of_ne hij with hlt | hgt
    · exact hp i j hi hj hlt
    · cases hsame : env.samePeer t.mPeers[i] t.mPeers[j] with
      | false => rfl
      | true =>
        have h1 := hsymm _ _ hsame
        rw [hp j i hj hi hgt] at h1
        exact absurd h1 (by simp)
  · intro alive1 alive2 p q hs hpq hp
    have h0 : HasLedger ({ s with mPeers := [p] } : LedgerAcquire M) := hs
    obtain ⟨s1, h1, hk⟩ := trigger_returns env alive1 _ (some p) h0
    have hs1 : s1.mPeers = [p] := hk.2.2 rfl
    refine ⟨s1, { s1 with mPeers := [p] }, ?_, ?_, rfl, rfl⟩
    · simp only [peerHas, hempty, peerHasLoop, newPeer]
      simpa using h1
    · simp [peerHas, hs1, peerHasLoop, hp, hpq]

/-- Claim C10 at a concrete input: the fresh acquisition of ledger `1` with the sample
`samePeer`, which is symmetric. Peer objects `10` and `11` are the same peer, `20` is
another, and `10` has died before the last call. -/
theorem peer_list_has_no_duplicates_witness :
    (∃ t, run sampleEnv (LedgerAcquire.new 1)
        [(allAlive, Op.peerHas 10), (allAlive, Op.peerHas 20), (allAlive, Op.peerHas 11),
         (allAlive, Op.badPeer 21), (fun p => p != 10, Op.peerHas 11)] = some t ∧
      ∀ (i j : Nat) (hi : i < t.mPeers.length) (hj : j < t.mPeers.length), i ≠ j →
        sampleEnv.samePeer t.mPeers[i] t.mPeers[j] = false) ∧
    (∃ s1 s2, peerHas sampleEnv allAlive (LedgerAcquire.new 1) 10 = some s1 ∧
      peerHas sampleEnv allAlive s1 11 = some s2 ∧ s2.mPeers = [10] ∧ s2.mPeers.length = 1) :=
  have h := peer_list_has_no_duplicates sampleEnv
    (fun a b hab => by
      simp only [sampleEnv, beq_iff_eq] at hab ⊢
      exact hab.symm)
    (LedgerAcquire.new 1) rfl
  have hl : HasLedger (LedgerAcquire.new 1 : LedgerAcquire SampleMap) := fun hb => by
    simp [LedgerAcquire.new] at hb
  ⟨(h.1 _ (by decide)).1 hl |>.elim (fun t ht => ⟨t, ht, (h.1 _ (by decide)).2 t ht⟩),
   h.2 allAlive allAlive 10 11 hl rfl rfl⟩

/-- The loop of `sendRequest(tmGL)` leaves the list from its first live entry on. -/
theorem sendRequestLoop_fst (alive : PeerId → Bool) (l : List PeerId) :
    (sendRequestLoop alive l).1 = l.dropWhile (fun p => !alive p) := by
  induction l with
  | nil => rfl
  | cons p rest ih =>
    unfold sendRequestLoop
    cases hp : alive p <;> simp [hp, ih, List.dropWhile_cons]

/-- The function `sendRequest(tmGL)` in one equation: the dead entries before the first
live one are erased and the packet goes to the first live one. -/
theorem sendRequest_eq {M : Type} (alive : PeerId → Bool) (s : LedgerAcquire M)
    (msg : TMGetLedger) :
    sendRequest alive s msg =
      { s with
        mPeers := s.mPeers.dropWhile (fun p => !alive p)
        out := s.out ++ (match s.mPeers.find? alive with
                         | some q => [Event.sendPacket q msg]
                         | none => []) } := by
  have h1 := sendRequestLoop_fst alive s.mPeers
  have h2 := sendRequestLoop_snd alive s.mPeers
  unfold sendRequest
  split
  · rename_i he
    have hp : s.mPeers = [] := by simpa using he
    cases s
    simp only at hp
    subst hp
    simp
  · split
    · rename_i l p hl
      rw [hl] at h1 h2
      simp only at h1 h2
      simp [← h1, ← h2]
    · rename_i l hl
      rw [hl] at h1 h2
      simp only at h1 h2
      simp [← h1, ← h2]

/-- The function `sendRequest(tmGL)` keeps what `Frame` lists. -/
theorem sendRequest_frame {M : Type} (alive : PeerId → Bool) (s : LedgerAcquire M)
    (msg : TMGetLedger) : Frame s (sendRequest alive s msg) := by
  rw [sendRequest_eq]
  exact ⟨rfl, rfl, rfl, rfl, rfl, fun _ => ⟨rfl, rfl⟩⟩

/-- Nothing changed: the frame is kept. -/
theorem Frame.id_frame {M : Type} (s : LedgerAcquire M) : Frame s s :=
  ⟨rfl, rfl, rfl, rfl, rfl, fun _ => ⟨rfl, rfl⟩⟩

/-- Keeping the frame composes. -/
theorem Frame.comp_frame {M : Type} {s t u : LedgerAcquire M} (h1 : Frame s t) (h2 : Frame t u) :
    Frame s u := by
  obtain ⟨a1, a2, a3, a4, a5, a6⟩ := h1
  obtain ⟨b1, b2, b3, b4, b5, b6⟩ := h2
  refine ⟨b1.trans a1, b2.trans a2, b3.trans a3, b4.trans a4, b5.trans a5, fun hb => ?_⟩
  have hb2 := b6 (a4.trans hb)
  have ha2 := a6 hb
  exact ⟨hb2.1.trans ha2.1, hb2.2.trans ha2.2⟩

/-- Sending a request keeps the frame. -/
theorem request_frame {M : Type} (alive : PeerId → Bool) (s : LedgerAcquire M)
    (msg : TMGetLedger) (peer : Option PeerId) :
    Flow.All (Frame s) (request alive s msg peer) := by
  cases peer with
  | none => exact sendRequest_frame alive s msg
  | some p => exact ⟨rfl, rfl, rfl, rfl, rfl, fun _ => ⟨rfl, rfl⟩⟩

/-- The block of the base keeps the frame. -/
theorem triggerBase_frame {M : Type} (alive : PeerId → Bool) (peer : Option PeerId)
    (s : LedgerAcquire M) : Flow.All (Frame s) (triggerBase alive s peer) := by
  unfold triggerBase
  split
  · exact request_frame alive s _ peer
  · exact Frame.id_frame s

/-- The block of the transaction tree keeps the frame. -/
theorem triggerTx_frame {M : Type} (env : Env M) (alive : PeerId → Bool)
    (peer : Option PeerId) (s : LedgerAcquire M) :
    Flow.All (Frame s) (triggerTx env alive s peer) := by
  unfold triggerTx
  split
  · rename_i hc
    have hb : s.mHaveBase = true := by
      simp only [Bool.and_eq_true] at hc
      exact hc.1
    split
    · trivial
    · rename_i ledger hl
      split
      · exact request_frame alive s _ peer
      · have hk : Frame s { s with mLedger := some { ledger with
            transactionMap := (env.getMissingNodes ledger.transactionMap 128).2 } } :=
          ⟨rfl, rfl, rfl, rfl, by simp [hl], fun h => by simp [hb] at h⟩
        have hf : ∀ t : LedgerAcquire M, t.mHash = s.mHash → t.mTimeouts = s.mTimeouts →
            t.mProgress = s.mProgress → t.mHaveBase = s.mHaveBase →
            t.mLedger.map (fun l => l.hash) = s.mLedger.map (fun l => l.hash) → Frame s t :=
          fun t h1 h2 h3 h4 h5 => ⟨h1, h2, h3, h4, h5, fun h => by simp [hb] at h⟩
        dsimp only
        split
        · split
          · exact hf _ rfl rfl rfl rfl hk.2.2.2.2.1
          · split
            · exact hf _ rfl rfl rfl rfl hk.2.2.2.2.1
            · exact hf _ rfl rfl rfl rfl hk.2.2.2.2.1
        · exact (request_frame alive _ _ peer).imp (fun _ h => hk.comp_frame h)
  · exact Frame.id_frame s

/-- The block of the account state tree keeps the frame. -/
theorem triggerAs_frame {M : Type} (env : Env M) (alive : PeerId → Bool)
    (peer : Option PeerId) (s : LedgerAcquire M) :
    Flow.All (Frame s) (triggerAs env alive s peer) := by
  unfold triggerAs
  split
  · rename_i hc
    have hb : s.mHaveBase = true := by
      simp only [Bool.and_eq_true] at hc
      exact hc.1
    split
    · trivial
    · rename_i ledger hl
      split
      · exact request_frame alive s _ peer
      · have hk : Frame s { s with mLedger := some { ledger with
            accountStateMap := (env.getMissingNodes ledger.accountStateMap 128).2 } } :=
          ⟨rfl, rfl, rfl, rfl, by simp [hl], fun h => by simp [hb] at h⟩
        have hf : ∀ t : LedgerAcquire M, t.mHash = s.mHash → t.mTimeouts = s.mTimeouts →
            t.mProgress = s.mProgress → t.mHaveBase = s.mHaveBase →
            t.mLedger.map (fun l => l.hash) = s.mLedger.map (fun l => l.hash) → Frame s t :=
          fun t h1 h2 h3 h4 h5 => ⟨h1, h2, h3, h4, h5, fun h => by simp [hb] at h⟩
        dsimp only
        split
        · split
          · exact hf _ rfl rfl rfl rfl hk.2.2.2.2.1
          · split
            · exact hf _ rfl rfl rfl rfl hk.2.2.2.2.1
            · exact hf _ rfl rfl rfl rfl hk.2.2.2.2.1
        · exact (request_frame alive _ _ peer).imp (fun _ h => hk.comp_frame h)
  · exact Frame.id_frame s

/-- The last statement of `trigger` keeps the frame. -/
theorem triggerEnd_frame {M : Type} (s : LedgerAcquire M) : Frame s (triggerEnd s) := by
  unfold triggerEnd done setComplete resetTimer
  split
  · split <;> exact ⟨rfl, rfl, rfl, rfl, rfl, fun _ => ⟨rfl, rfl⟩⟩
  · exact ⟨rfl, rfl, rfl, rfl, rfl, fun _ => ⟨rfl, rfl⟩⟩

/-- A relation that is reflexive and transitive and holds across each block of `trigger`
holds across `trigger`. -/
theorem trigger_rel {M : Type} (env : Env M) (alive : PeerId → Bool) (peer : Option PeerId)
    (R : LedgerAcquire M → LedgerAcquire M → Prop)
    (hrefl : ∀ s, R s s) (htrans : ∀ s t u, R s t → R t u → R s u)
    (hB : ∀ s, Flow.All (R s) (triggerBase alive s peer))
    (hT : ∀ s, Flow.All (R s) (triggerTx env alive s peer))
    (hA : ∀ s, Flow.All (R s) (triggerAs env alive s peer))
    (hE : ∀ s, R s (triggerEnd s))
    (s t : LedgerAcquire M) (h : trigger env alive s peer = some t) : R s t := by
  unfold trigger at h
  split at h
  · cases h
    exact hrefl s
  · have kb := hB s
    cases hb : triggerBase alive s peer with
    | fault => simp [hb] at h
    | ret s1 =>
      rw [hb] at kb
      simp only [hb, Option.some.injEq] at h
      exact h ▸ kb
    | next s1 =>
      rw [hb] at kb
      simp only [hb] at h
      have kt := hT s1
      cases ht : triggerTx env alive s1 peer with
      | fault => simp [ht] at h
      | ret s2 =>
        rw [ht] at kt
        simp only [ht, Option.some.injEq] at h
        exact h ▸ htrans _ _ _ kb kt
      | next s2 =>
        rw [ht] at kt
        simp only [ht] at h
        have ka := hA s2
        cases ha : triggerAs env alive s2 peer with
        | fault => simp [ha] at h
        | ret s3 =>
          rw [ha] at ka
          simp only [ha, Option.some.injEq] at h
          exact h ▸ htrans _ _ _ (htrans _ _ _ kb kt) ka
        | next s3 =>
          rw [ha] at ka
          simp only [ha, Option.some.injEq] at h
          exact h ▸ htrans _ _ _ (htrans _ _ _ (htrans _ _ _ kb kt) ka) (hE s3)

/-- Whatever `trigger` returns keeps the frame. -/
theorem trigger_frame {M : Type} (env : Env M) (alive : PeerId → Bool) (peer : Option PeerId)
    (s t : LedgerAcquire M) (h : trigger env alive s peer = some t) : Frame s t :=
  trigger_rel env alive peer Frame Frame.id_frame (fun _ _ _ h1 h2 => h1.comp_frame h2)
    (triggerBase_frame alive peer) (triggerTx_frame env alive peer)
    (triggerAs_frame env alive peer) triggerEnd_frame s t h

/-- The loop of `sendRequest(tmGL)` on a list whose first live entry is `q`. -/
theorem sendRequestLoop_live (alive : PeerId → Bool) (q : PeerId) (rest : List PeerId)
    (hq : alive q = true) :
    ∀ dead : List PeerId, (∀ d ∈ dead, alive d = false) →
      sendRequestLoop alive (dead ++ q :: rest) = (q :: rest, some q)
  | [], _ => by simp [sendRequestLoop, hq]
  | d :: ds, hd => by
    have h1 : alive d = false := hd d (List.mem_cons_self _ _)
    have h2 := sendRequestLoop_live alive q rest hq ds
      (fun x hx => hd x (List.mem_cons_of_mem _ hx))
    simp [sendRequestLoop, h1, h2]

/-- The loop of `sendRequest(tmGL)` on a list without a live entry. -/
theorem sendRequestLoop_dead (alive : PeerId → Bool) :
    ∀ l : List PeerId, (∀ d ∈ l, alive d = false) → sendRequestLoop alive l = ([], none)
  | [], _ => rfl
  | d :: ds, hd => by
    have h1 : alive d = false := hd d (List.mem_cons_self _ _)
    have h2 := sendRequestLoop_dead alive ds (fun x hx => hd x (List.mem_cons_of_mem _ hx))
    simp [sendRequestLoop, h1, h2]

/-- Claim C11. When the peer list is `dead ++ q :: rest` with every entry of `dead`
dead and `q` alive, so that `q` is the first live peer in insertion order,
`sendRequest(req)` hands exactly one packet, the request, to `q`, and leaves the list
`q :: rest`: the dead entries before `q` are removed and nothing else is. When no
entry of the list is alive it hands out no packet and leaves the list empty. In both
cases nothing else of the state changes. -/
theorem sendRequest_first_live_peer {M : Type} (alive : PeerId → Bool) (s : LedgerAcquire M)
    (req : TMGetLedger) :
    (∀ (dead rest : List PeerId) (q : PeerId), s.mPeers = dead ++ q :: rest →
      (∀ d ∈ dead, alive d = false) → alive q = true →
      sendRequest alive s req =
        { s with mPeers := q :: rest, out := s.out ++ [Event.sendPacket q req] }) ∧
    ((∀ d ∈ s.mPeers, alive d = false) →
      sendRequest alive s req = { s with mPeers := [] }) := by
  constructor
  · intro dead rest q hl hd hq
    have h := sendRequestLoop_live alive q rest hq dead hd
    unfold sendRequest
    rw [hl, h]
    simp
  · intro hd
    have h := sendRequestLoop_dead alive s.mPeers hd
    unfold sendRequest
    rw [h]
    split
    · rename_i he
      have hp : s.mPeers = [] := by simpa using he
      cases s
      simp only at hp
      subst hp
      rfl
    · rfl

/-- Claim C11 at concrete inputs: the list `[11, 12, 10, 13]` of which `11` and `12`
are dead, and the same list with no peer alive. -/
theorem sendRequest_first_live_peer_witness :
    sendRequest (fun p => p == 10 || p == 13)
        { (LedgerAcquire.new 1 : LedgerAcquire SampleMap) with mPeers := [11, 12, 10, 13] }
        (baseRequest 1)
      = { (LedgerAcquire.new 1 : LedgerAcquire SampleMap) with
          mPeers := [10, 13], out := [Event.sendPacket 10 (baseRequest 1)] }
    ∧ sendRequest noneAlive
        { (LedgerAcquire.new 1 : LedgerAcquire SampleMap) with mPeers := [11, 12, 10, 13] }
        (baseRequest 1)
      = { (LedgerAcquire.new 1 : LedgerAcquire SampleMap) with mPeers := [], out := [] } :=
  ⟨(sendRequest_first_live_peer (fun p => p == 10 || p == 13)
      { (LedgerAcquire.new 1 : LedgerAcquire SampleMap) with mPeers := [11, 12, 10, 13] }
      (baseRequest 1)).1 [11, 12] [13] 10 rfl (by decide) rfl,
   (sendRequest_first_live_peer noneAlive
      { (LedgerAcquire.new 1 : LedgerAcquire SampleMap) with mPeers := [11, 12, 10, 13] }
      (baseRequest 1)).2 (by decide)⟩

/-- The statement `++n` adds one to a counter that is within the range of an `int`
and below its largest value. -/
theorem incInt_below_max (n : Int) (hlo : INT_MIN ≤ n) (hhi : n < INT_MAX) :
    incInt n = n + 1 := by
  unfold INT_MIN at hlo
  unfold INT_MAX at hhi
  unfold incInt
  omega

/-- Claim C12 (amended). With `progress` false, `invokeOnTimer` is `onTimer` called
once on the state whose `timeouts` went through `++`; when the counter is within the
range of its type and below the largest value, `timeouts` is exactly one higher and
`progress` is still false when the call returns. With `progress` true it is `onTimer`
called once on the state with `progress` cleared, and when the call returns
`progress` is false and `timeouts` is as before, whatever the counter. The call
returns on every state that has its ledger whenever it holds the base. -/
theorem invokeOnTimer_counts_stalls {M : Type} (env : Env M) (alive : PeerId → Bool)
    (s : LedgerAcquire M) :
    (s.mProgress = false →
      invokeOnTimer env alive s = onTimer env alive { s with mTimeouts := incInt s.mTimeouts } ∧
      (INT_MIN ≤ s.mTimeouts → s.mTimeouts < INT_MAX →
        invokeOnTimer env alive s
          = onTimer env alive { s with mTimeouts := s.mTimeouts + 1 } ∧
        ∀ t, invokeOnTimer env alive s = some t →
          t.mTimeouts = s.mTimeouts + 1 ∧ t.mProgress = false)) ∧
    (s.mProgress = true →
      invokeOnTimer env alive s = onTimer env alive { s with mProgress := false } ∧
      ∀ t, invokeOnTimer env alive s = some t →
        t.mTimeouts = s.mTimeouts ∧ t.mProgress = false) ∧
    (HasLedger s → ∃ t, invokeOnTimer env alive s = some t) := by
  refine ⟨?_, ?_, ?_⟩
  · intro hp
    have he : invokeOnTimer env alive s
        = onTimer env alive { s with mTimeouts := incInt s.mTimeouts } := by
      simp [invokeOnTimer, hp]
    refine ⟨he, fun hlo hhi => ?_⟩
    have hinc := incInt_below_max s.mTimeouts hlo hhi
    rw [hinc] at he
    refine ⟨he, fun t ht => ?_⟩
    rw [he] at ht
    have hf := trigger_frame env alive none _ t ht
    exact ⟨hf.2.1, hf.2.2.1.trans hp⟩
  · intro hp
    have he : invokeOnTimer env alive s = onTimer env alive { s with mProgress := false } := by
      simp [invokeOnTimer, hp]
    refine ⟨he, fun t ht => ?_⟩
    rw [he] at ht
    have hf := trigger_frame env alive none _ t ht
    exact ⟨hf.2.1, hf.2.2.1⟩
  · intro hs
    unfold invokeOnTimer onTimer
    split
    · have h1 : HasLedger ({ s with mTimeouts := incInt s.mTimeouts } : LedgerAcquire M) := hs
      obtain ⟨t, ht, _⟩ := trigger_returns env alive _ none h1
      exact ⟨t, ht⟩
    · have h1 : HasLedger ({ s with mProgress := false } : LedgerAcquire M) := hs
      obtain ⟨t, ht, _⟩ := trigger_returns env alive _ none h1
      exact ⟨t, ht⟩

/-- Claim C12 (as stated, refuted). On the acquisition of ledger `1` with `progress`
false and `timeouts` at the largest value of an `int`, `invokeOnTimer` returns with
`timeouts` at the smallest value, not one higher. -/
theorem invokeOnTimer_wraps_at_maximum :
    (invokeOnTimer sampleEnv allAlive
        { (LedgerAcquire.new 1 : LedgerAcquire SampleMap) with
          mProgress := false, mTimeouts := 2147483647 }).map
      (fun t => (t.mTimeouts, decide (t.mTimeouts = 2147483647 + 1)))
      = some (-2147483648, false) := by
  decide

/-- Claim C12 (amended) at concrete inputs: the fresh acquisition of ledger `1`, whose
`progress` is true, and the same acquisition with `progress` false and `timeouts` at
`0` and at `41`. -/
theorem invokeOnTimer_counts_stalls_witness :
    invokeOnTimer sampleEnv allAlive (LedgerAcquire.new 1)
      = onTimer sampleEnv allAlive
          { (LedgerAcquire.new 1 : LedgerAcquire SampleMap) with mProgress := false }
    ∧ invokeOnTimer sampleEnv allAlive
        { (LedgerAcquire.new 1 : LedgerAcquire SampleMap) with
          mProgress := false, mTimeouts := 41 }
      = onTimer sampleEnv allAlive
          { (LedgerAcquire.new 1 : LedgerAcquire SampleMap) with
            mProgress := false, mTimeouts := 41 + 1 }
    ∧ ∃ t, invokeOnTimer sampleEnv allAlive (LedgerAcquire.new 1) = some t :=
  ⟨((invokeOnTimer_counts_stalls sampleEnv allAlive (LedgerAcquire.new 1)).2.1 rfl).1,
   (((invokeOnTimer_counts_stalls sampleEnv allAlive
      { (LedgerAcquire.new 1 : LedgerAcquire SampleMap) with
        mProgress := false, mTimeouts := 41 }).1 rfl).2 (by decide) (by decide)).1,
   (invokeOnTimer_counts_stalls sampleEnv allAlive (LedgerAcquire.new 1)).2.2
      (fun hb => by simp [LedgerAcquire.new] at hb)⟩

/-- The loop of `badPeer` on a list with at most one live entry per peer: no live entry
it leaves is the same peer as `ptr`, and the live entries that are not the same peer
as `ptr` are left as they were, in their order. -/
theorem badPeerLoop_spec (samePeer : PeerId → PeerId → Bool)
    (hsymm : ∀ a b, samePeer a b = true → samePeer b a = true)
    (htrans : ∀ a b c, samePeer a b = true → samePeer b c = true → samePeer a c = true)
    (alive : PeerId → Bool) (ptr : PeerId) :
    ∀ l : List PeerId,
      l.Pairwise (fun a b => alive a = true → alive b = true → samePeer a b = false) →
      (∀ q ∈ badPeerLoop samePeer alive ptr l, alive q = true → samePeer ptr q = false) ∧
      (badPeerLoop samePeer alive ptr l).filter (fun q => alive q && !samePeer ptr q)
        = l.filter (fun q => alive q && !samePeer ptr q)
  | [], _ => by simp [badPeerLoop]
  | pr :: rest, hp => by
    have hrest := (List.pairwise_cons.1 hp).2
    have hhead := (List.pairwise_cons.1 hp).1
    have ih := badPeerLoop_spec samePeer hsymm htrans alive ptr rest hrest
    unfold badPeerLoop
    cases ha : alive pr with
    | false => simpa [ha] using ih
    | true =>
      cases hs : samePeer ptr pr with
      | true =>
        simp only [Bool.not_true, Bool.false_eq_true, if_false, if_true]
        refine ⟨fun q hq hqa => ?_, by simp [List.filter_cons, ha, hs]⟩
        cases hpq : samePeer ptr q with
        | false => rfl
        | true =>
          have h1 := htrans pr ptr q (hsymm ptr pr hs) hpq
          rw [hhead q hq ha hqa] at h1
          exact absurd h1 (by simp)
      | false =>
        simp only [Bool.not_true, Bool.false_eq_true, if_false]
        refine ⟨fun q hq hqa => ?_, by simp [List.filter_cons, ha, hs, ih.2]⟩
        rcases List.mem_cons.1 hq with rfl | hq
        · exact hs
        · exact ih.1 q hq hqa

/-- Claim C16. Let `samePeer` be symmetric and transitive (as it is when it is an
equivalence relation) and let the peer list hold at most one live entry per peer.
After `badPeer(p)` no live entry of the list is the same peer as `p`, in either
direction of the test; the live entries that are not the same peer as `p` are those
that were in the list before, in the same order; and nothing but the peer list has
changed. -/
theorem badPeer_removes_the_peer {M : Type} (env : Env M)
    (hsymm : ∀ a b, env.samePeer a b = true → env.samePeer b a = true)
    (htrans : ∀ a b c, env.samePeer a b = true → env.samePeer b c = true →
      env.samePeer a c = true)
    (alive : PeerId → Bool) (s : LedgerAcquire M) (p : PeerId)
    (hone : s.mPeers.Pairwise
      (fun a b => alive a = true → alive b = true → env.samePeer a b = false)) :
    (∀ q ∈ (badPeer env alive s p).mPeers, alive q = true →
      env.samePeer p q = false ∧ env.samePeer q p = false) ∧
    (badPeer env alive s p).mPeers.filter (fun q => alive q && !env.samePeer p q)
      = s.mPeers.filter (fun q => alive q && !env.samePeer p q) ∧
    badPeer env alive s p = { s with mPeers := (badPeer env alive s p).mPeers } := by
  obtain ⟨h1, h2⟩ := badPeerLoop_spec env.samePeer hsymm htrans alive p s.mPeers hone
  refine ⟨fun q hq hqa => ?_, h2, rfl⟩
  have hpq := h1 q hq hqa
  refine ⟨hpq, ?_⟩
  cases hqp : env.samePeer q p with
  | false => rfl
  | true =>
    have := hsymm q p hqp
    rw [hpq] at this
    exact absurd this (by simp)

/-- Claim C16 at a concrete input: the list `[31, 10, 20]` in which `31` is dead;
`badPeer(11)` removes `31` and `10`, which is the same peer as `11`. -/
theorem badPeer_removes_the_peer_witness :
    (badPeer sampleEnv (fun q => q != 31)
        { (LedgerAcquire.new 1 : LedgerAcquire SampleMap) with mPeers := [31, 10, 20] }
        11).mPeers.filter (fun q => (q != 31) && !sampleEnv.samePeer 11 q)
      = [20] :=
  (badPeer_removes_the_peer sampleEnv
    (fun a b hab => by
      simp only [sampleEnv, beq_iff_eq] at hab ⊢
      exact hab.symm)
    (fun a b c hab hbc => by
      simp only [sampleEnv, beq_iff_eq] at hab hbc ⊢
      exact hab.trans hbc)
    (fun q => q != 31)
    { (LedgerAcquire.new 1 : LedgerAcquire SampleMap) with mPeers := [31, 10, 20] } 11
    (by decide)).2.1

/-- A fresh acquisition is sound. -/
theorem Sound.new_ {M : Type} (hash : Hash) : Sound (LedgerAcquire.new hash : LedgerAcquire M) :=
  ⟨fun h => by simp [LedgerAcquire.new] at h, rfl, fun _ h => by simp [LedgerAcquire.new] at h⟩

/-- Soundness only looks at the have-flags, the ledger and the target hash. -/
theorem Sound.of_eq {M : Type} {s t : LedgerAcquire M} (hs : Sound s)
    (h1 : t.mHaveTransactions = s.mHaveTransactions) (h2 : t.mHaveState = s.mHaveState)
    (h3 : t.mHaveBase = s.mHaveBase) (h4 : t.mLedger = s.mLedger) (h5 : t.mHash = s.mHash) :
    Sound t := by
  unfold Sound
  rw [h1, h2, h3, h4, h5]
  exact hs

/-- A state that holds the base and a ledger with the target hash is sound. -/
theorem Sound.of_base {M : Type} {t : LedgerAcquire M} (ledger : Ledger M)
    (hb : t.mHaveBase = true) (hl : t.mLedger = some ledger) (hh : ledger.hash = t.mHash) :
    Sound t := by
  refine ⟨fun _ => hb, by simp [hb, hl], fun l h => ?_⟩
  rw [hl] at h
  cases h
  exact hh

/-- Soundness goes along the frame. -/
theorem Sound.frame {M : Type} {s t : LedgerAcquire M} (hs : Sound s) (hf : Frame s t) :
    Sound t := by
  obtain ⟨f1, _, _, f4, f5, f6⟩ := hf
  obtain ⟨s1, s2, s3⟩ := hs
  have hsome : t.mLedger.isSome = s.mLedger.isSome := by
    have := congrArg Option.isSome f5
    simpa using this
  refine ⟨fun h => ?_, by rw [f4, hsome, s2], fun l hl => ?_⟩
  · cases hb : s.mHaveBase with
    | true => exact f4.trans hb
    | false =>
      obtain ⟨g1, g2⟩ := f6 hb
      rw [g1, g2] at h
      exact absurd (s1 h) (by simp [hb])
  · rw [hl] at f5
    cases hsl : s.mLedger with
    | none => simp [hsl] at f5
    | some l0 =>
      simp only [hsl, Option.map_some', Option.some.injEq] at f5
      rw [f5, f1]
      exact s3 l0 hsl

/-- The function `trigger` keeps an acquisition sound and keeps its target hash. -/
theorem trigger_sound {M : Type} (env : Env M) (alive : PeerId → Bool) (peer : Option PeerId)
    (s t : LedgerAcquire M) (hs : Sound s) (h : trigger env alive s peer = some t) :
    Sound t ∧ t.mHash = s.mHash :=
  ⟨hs.frame (trigger_frame env alive peer s t h), (trigger_frame env alive peer s t h).1⟩

/-- The three ways `takeBase` returns: at once when the base is held; with false and
the ledger dropped when the hash differs; and otherwise with true and the state
`trigger` returns from a state that holds the base and the parsed ledger. -/
theorem takeBase_cases {M : Type} (env : Env M) (alive : PeerId → Bool) (peer : Option PeerId)
    (data : Blob) (s : LedgerAcquire M) (r : Bool × LedgerAcquire M)
    (h : takeBase env alive s data peer = some r) :
    (s.mHaveBase = true ∧ r = (true, s)) ∨
    (s.mHaveBase = false ∧ (env.parseLedger data).hash ≠ s.mHash ∧
      r = (false, { s with mLedger := none })) ∨
    (s.mHaveBase = false ∧ (env.parseLedger data).hash = s.mHash ∧
      ∃ x t, x.mHaveBase = true ∧
        x.mLedger = some { env.parseLedger data with acquiring := true } ∧
        x.mHash = s.mHash ∧ trigger env alive x peer = some t ∧ r = (true, t)) := by
  rcases Bool.eq_false_or_eq_true s.mHaveBase with hb | hb
  · left
    simp only [takeBase, hb, if_true, Option.some.injEq] at h
    exact ⟨hb, h.symm⟩
  · right
    by_cases hh : (env.parseLedger data).hash = s.mHash
    · right
      refine ⟨hb, hh, ?_⟩
      have key : ∀ x : LedgerAcquire M, x.mHaveBase = true →
          x.mLedger = some { env.parseLedger data with acquiring := true } →
          x.mHash = s.mHash →
          (trigger env alive x peer).map (fun t => (true, t)) = some r →
          ∃ x t, x.mHaveBase = true ∧
            x.mLedger = some { env.parseLedger data with acquiring := true } ∧
            x.mHash = s.mHash ∧ trigger env alive x peer = some t ∧ r = (true, t) := by
        intro x h1 h2 h3 h4
        simp only [Option.map_eq_some'] at h4
        obtain ⟨t, ht, hr⟩ := h4
        exact ⟨x, t, h1, h2, h3, ht, hr.symm⟩
      have hne : ((env.parseLedger data).hash != s.mHash) = false := by simpa using hh
      unfold takeBase at h
      simp only [hb, Bool.false_eq_true, if_false, hne] at h
      refine key _ ?_ rfl ?_ h
      · split <;> split <;> simp [progress]
      · split <;> split <;> simp [progress]
    · left
      have he : takeBase env alive s data peer = some (false, { s with mLedger := none }) := by
        simp [takeBase, hb, hh]
      rw [he] at h
      cases h
      exact ⟨hb, hh, rfl⟩

/-- The function `takeBase` keeps an acquisition sound and keeps its target hash. -/
theorem takeBase_sound {M : Type} (env : Env M) (alive : PeerId → Bool) (peer : Option PeerId)
    (data : Blob) (s : LedgerAcquire M) (r : Bool × LedgerAcquire M) (hs : Sound s)
    (h : takeBase env alive s data peer = some r) : Sound r.2 ∧ r.2.mHash = s.mHash := by
  rcases takeBase_cases env alive peer data s r h with ⟨_, rfl⟩ | ⟨hb, _, rfl⟩ |
    ⟨_, hh, x, t, h1, h2, h3, ht, rfl⟩
  · exact ⟨hs, rfl⟩
  · exact ⟨⟨hs.1, by simp [hb], fun _ hl => by simp at hl⟩, rfl⟩
  · have h0 := trigger_sound env alive peer x t
      (Sound.of_base _ h1 h2 (by rw [h3]; exact hh)) ht
    exact ⟨h0.1, h0.2.trans h3⟩

/-- The loop over a batch does not run past the end of a data list that is at least
as long as the id list. -/
theorem addNodes_ne_pastEnd {M : Type} (env : Env M) (rootHash : Hash) :
    ∀ (ids : List SHAMapNode) (data : List Blob) (m : M), ids.length ≤ data.length →
      addNodes env rootHash m ids data ≠ Walk.pastEnd
  | [], _, _, _ => by simp [addNodes]
  | _ :: _, [], _, h => by simp at h
  | id :: ids, d :: ds, m, h => by
    have hl : ids.length ≤ ds.length := by simpa using h
    simp only [addNodes]
    split
    · simp
    · exact addNodes_ne_pastEnd env rootHash ids ds _ hl

/-- The ways `takeTxNode` returns: at once without the base; with false and only the
tree changed when a node is refused; and otherwise with true and the state `trigger`
returns, with `progress` set, from a state that keeps the base and the header of the
ledger. -/
theorem takeTxNode_cases {M : Type} (env : Env M) (alive : PeerId → Bool)
    (peer : Option PeerId) (ids : List SHAMapNode) (data : List Blob)
    (s : LedgerAcquire M) (r : Bool × LedgerAcquire M)
    (h : takeTxNode env alive s ids data peer = some r) :
    (s.mHaveBase = false ∧ r = (false, s)) ∨
    (s.mHaveBase = true ∧ ∃ ledger m, s.mLedger = some ledger ∧
      (r = (false, { s with mLedger := some { ledger with transactionMap := m } }) ∨
       ∃ x t, x.mHaveBase = true ∧
        x.mLedger = some { ledger with transactionMap := m } ∧ x.mHash = s.mHash ∧
        trigger env alive x peer = some t ∧ r = (true, progress t))) := by
  rcases Bool.eq_false_or_eq_true s.mHaveBase with hb | hb
  · right
    refine ⟨hb, ?_⟩
    have hnb : (!s.mHaveBase) = false := by simp [hb]
    unfold takeTxNode at h
    simp only [hnb, Bool.false_eq_true, if_false] at h
    split at h
    · cases h
    · rename_i ledger hl
      split at h
      · cases h
      · rename_i m hw
        cases h
        exact ⟨ledger, m, hl, Or.inl rfl⟩
      · rename_i m hw
        refine ⟨ledger, m, hl, Or.inr ?_⟩
        simp only [Option.map_eq_some'] at h
        obtain ⟨t, ht, hr⟩ := h
        refine ⟨_, t, ?_, ?_, ?_, ht, hr.symm⟩
        · split <;> [split; skip] <;> simp [hb]
        · split <;> [split; skip] <;> simp
        · split <;> [split; skip] <;> simp
  · left
    simp only [takeTxNode, hb, Bool.not_false, if_true, Option.some.injEq] at h
    exact ⟨hb, h.symm⟩

/-- The ways `takeAsNode` returns: at once without the base; with false and only the
tree changed when a node is refused; and otherwise with true and the state `trigger`
returns, with `progress` set, from a state that keeps the base and the header of the
ledger. -/
theorem takeAsNode_cases {M : Type} (env : Env M) (alive : PeerId → Bool)
    (peer : Option PeerId) (ids : List SHAMapNode) (data : List Blob)
    (s : LedgerAcquire M) (r : Bool × LedgerAcquire M)
    (h : takeAsNode env alive s ids data peer = some r) :
    (s.mHaveBase = false ∧ r = (false, s)) ∨
    (s.mHaveBase = true ∧ ∃ ledger m, s.mLedger = some ledger ∧
      (r = (false, { s with mLedger := some { ledger with accountStateMap := m } }) ∨
       ∃ x t, x.mHaveBase = true ∧
        x.mLedger = some { ledger with accountStateMap := m } ∧ x.mHash = s.mHash ∧
        trigger env alive x peer = some t ∧ r = (true, progress t))) := by
  rcases Bool.eq_false_or_eq_true s.mHaveBase with hb | hb
  · right
    refine ⟨hb, ?_⟩
    have hnb : (!s.mHaveBase) = false := by simp [hb]
    unfold takeAsNode at h
    simp only [hnb, Bool.false_eq_true, if_false] at h
    split at h
    · cases h
    · rename_i ledger hl
      split at h
      · cases h
      · rename_i m hw
        cases h
        exact ⟨ledger, m, hl, Or.inl rfl⟩
      · rename_i m hw
        refine ⟨ledger, m, hl, Or.inr ?_⟩
        simp only [Option.map_eq_some'] at h
        obtain ⟨t, ht, hr⟩ := h
        refine ⟨_, t, ?_, ?_, ?_, ht, hr.symm⟩
        · split <;> [split; skip] <;> simp [hb]
        · split <;> [split; skip] <;> simp
        · split <;> [split; skip] <;> simp
  · left
    simp only [takeAsNode, hb, Bool.not_false, if_true, Option.some.injEq] at h
    exact ⟨hb, h.symm⟩

/-- The function `takeTxNode` keeps an acquisition sound and keeps its target hash. -/
theorem takeTxNode_sound {M : Type} (env : Env M) (alive : PeerId → Bool)
    (peer : Option PeerId) (ids : List SHAMapNode) (data : List Blob)
    (s : LedgerAcquire M) (r : Bool × LedgerAcquire M) (hs : Sound s)
    (h : takeTxNode env alive s ids data peer = some r) :
    Sound r.2 ∧ r.2.mHash = s.mHash := by
  rcases takeTxNode_cases env alive peer ids data s r h with ⟨_, rfl⟩ |
    ⟨hb, ledger, m, hl, rfl | ⟨x, t, h1, h2, h3, ht, rfl⟩⟩
  · exact ⟨hs, rfl⟩
  · exact ⟨Sound.of_base _ hb rfl (hs.2.2 ledger hl), rfl⟩
  · have h0 := trigger_sound env alive peer x t
      (Sound.of_base _ h1 h2 (by rw [h3]; exact hs.2.2 ledger hl)) ht
    exact ⟨h0.1.of_eq rfl rfl rfl rfl rfl, h0.2.trans h3⟩

/-- The function `takeAsNode` keeps an acquisition sound and keeps its target hash. -/
theorem takeAsNode_sound {M : Type} (env : Env M) (alive : PeerId → Bool)
    (peer : Option PeerId) (ids : List SHAMapNode) (data : List Blob)
    (s : LedgerAcquire M) (r : Bool × LedgerAcquire M) (hs : Sound s)
    (h : takeAsNode env alive s ids data peer = some r) :
    Sound r.2 ∧ r.2.mHash = s.mHash := by
  rcases takeAsNode_cases env alive peer ids data s r h with ⟨_, rfl⟩ |
    ⟨hb, ledger, m, hl, rfl | ⟨x, t, h1, h2, h3, ht, rfl⟩⟩
  · exact ⟨hs, rfl⟩
  · exact ⟨Sound.of_base _ hb rfl (hs.2.2 ledger hl), rfl⟩
  · have h0 := trigger_sound env alive peer x t
      (Sound.of_base _ h1 h2 (by rw [h3]; exact hs.2.2 ledger hl)) ht
    exact ⟨h0.1.of_eq rfl rfl rfl rfl rfl, h0.2.trans h3⟩

/-- Every call keeps an acquisition sound and keeps its target hash. -/
theorem applyOp_sound {M : Type} (env : Env M) (alive : PeerId → Bool) (op : Op)
    (s t : LedgerAcquire M) (hs : Sound s) (h : applyOp env alive s op = some t) :
    Sound t ∧ t.mHash = s.mHash := by
  cases op with
  | takeBase data peer =>
    simp only [applyOp, Option.map_eq_some'] at h
    obtain ⟨r, hr, rfl⟩ := h
    exact takeBase_sound env alive peer data s r hs hr
  | takeTxNode ids data peer =>
    simp only [applyOp, Option.map_eq_some'] at h
    obtain ⟨r, hr, rfl⟩ := h
    exact takeTxNode_sound env alive peer ids data s r hs hr
  | takeAsNode ids data peer =>
    simp only [applyOp, Option.map_eq_some'] at h
    obtain ⟨r, hr, rfl⟩ := h
    exact takeAsNode_sound env alive peer ids data s r hs hr
  | trigger peer => exact trigger_sound env alive peer s t hs h
  | timer =>
    simp only [applyOp, invokeOnTimer, onTimer] at h
    split at h
    · have h0 := fun hx => trigger_sound env alive none _ t hx h
      obtain ⟨a, b⟩ := h0 (hs.of_eq rfl rfl rfl rfl rfl)
      exact ⟨a, b⟩
    · have h0 := fun hx => trigger_sound env alive none _ t hx h
      obtain ⟨a, b⟩ := h0 (hs.of_eq rfl rfl rfl rfl rfl)
      exact ⟨a, b⟩
  | done =>
    simp only [applyOp, Option.some.injEq] at h
    subst h
    unfold done setComplete
    split
    · exact ⟨hs.of_eq rfl rfl rfl rfl rfl, rfl⟩
    · exact ⟨hs.of_eq rfl rfl rfl rfl rfl, rfl⟩
  | addOnComplete cb =>
    simp only [applyOp, Option.some.injEq] at h
    subst h
    exact ⟨hs.of_eq rfl rfl rfl rfl rfl, rfl⟩
  | peerHas ptr =>
    simp only [applyOp, peerHas, newPeer] at h
    split at h
    · cases h
      exact ⟨hs.of_eq rfl rfl rfl rfl rfl, rfl⟩
    · have h0 := fun hx => trigger_sound env alive (some ptr) _ t hx h
      obtain ⟨a, b⟩ := h0 (hs.of_eq rfl rfl rfl rfl rfl)
      exact ⟨a, b⟩
  | badPeer ptr =>
    simp only [applyOp, Option.some.injEq] at h
    subst h
    exact ⟨hs.of_eq rfl rfl rfl rfl rfl, rfl⟩

/-- Every sequence of calls keeps an acquisition sound and keeps its target hash. -/
theorem run_sound {M : Type} (env : Env M) :
    ∀ (calls : List ((PeerId → Bool) × Op)) (s t : LedgerAcquire M), Sound s →
      run env s calls = some t → Sound t ∧ t.mHash = s.mHash
  | [], s, t, hs, h => by
    simp only [run, Option.some.injEq] at h
    exact h ▸ ⟨hs, rfl⟩
  | c :: cs, s, t, hs, h => by
    simp only [run] at h
    cases h1 : applyOp env c.1 s c.2 with
    | none => simp [h1] at h
    | some s1 =>
      simp only [h1] at h
      have k1 := applyOp_sound env c.1 c.2 s s1 hs h1
      have k2 := run_sound env cs s1 t k1.1 h
      exact ⟨k2.1, k2.2.trans k1.2⟩

/-- Claim C15. In every state reached from a freshly constructed acquisition by a
sequence of calls of `takeBase`, `takeTxNode`, `takeAsNode` and `trigger` (and of
the timer, `done`, `addOnComplete`, `peerHas` and `badPeer`), `have_tx` or
`have_state` being true implies that `have_base` is true. -/
theorem tree_flags_imply_base {M : Type} (env : Env M) (hash : Hash)
    (calls : List ((PeerId → Bool) × Op)) (t : LedgerAcquire M)
    (h : run env (LedgerAcquire.new hash) calls = some t) :
    t.mHaveTransactions = true ∨ t.mHaveState = true → t.mHaveBase = true :=
  (run_sound env calls (LedgerAcquire.new hash) t (Sound.new_ hash) h).1.1

/-- Claim C15 at a concrete input: the run that ends in `failedAsState`, where
`have_tx` is set, and so is `have_base`. -/
theorem tree_flags_imply_base_witness :
    run sampleEnv (LedgerAcquire.new 1)
        [(allAlive, Op.takeBase [1, 0, 9, 3] none),
         (allAlive, Op.takeAsNode [0] [[9, 0]] none)] = some failedAsState
    ∧ (failedAsState.mHaveTransactions = true ∨ failedAsState.mHaveState = true →
        failedAsState.mHaveBase = true) :=
  have h : run sampleEnv (LedgerAcquire.new 1)
        [(allAlive, Op.takeBase [1, 0, 9, 3] none),
         (allAlive, Op.takeAsNode [0] [[9, 0]] none)] = some failedAsState := by decide
  ⟨h, tree_flags_imply_base sampleEnv 1 _ failedAsState h⟩

/-- The function `takeTxNode` returns on a state that has its ledger, when the data
list is at least as long as the id list. -/
theorem takeTxNode_returns {M : Type} (env : Env M) (alive : PeerId → Bool)
    (peer : Option PeerId) (ids : List SHAMapNode) (data : List Blob)
    (s : LedgerAcquire M) (hs : HasLedger s) (hlen : ids.length ≤ data.length) :
    ∃ r, takeTxNode env alive s ids data peer = some r := by
  rcases Bool.eq_false_or_eq_true s.mHaveBase with hb | hb
  · have hnb : (!s.mHaveBase) = false := by simp [hb]
    have hsome := hs hb
    cases hl : s.mLedger with
    | none => simp [hl] at hsome
    | some ledger =>
      have hne := addNodes_ne_pastEnd env ledger.transHash ids data ledger.transactionMap hlen
      unfold takeTxNode
      simp only [hnb, Bool.false_eq_true, if_false, hl]
      cases hw : addNodes env ledger.transHash ledger.transactionMap ids data with
      | pastEnd => exact absurd hw hne
      | refused m => exact ⟨_, rfl⟩
      | added m =>
        have hX : ∀ x : LedgerAcquire M, x.mLedger.isSome = true →
            ∃ r, (trigger env alive x peer).map (fun t => (true, progress t)) = some r := by
          intro x hx
          obtain ⟨t, ht, _⟩ := trigger_returns env alive x peer (fun _ => hx)
          exact ⟨(true, progress t), by simp [ht]⟩
        apply hX
        split <;> [split; skip] <;> rfl
  · exact ⟨(false, s), by simp [takeTxNode, hb]⟩

/-- The function `takeAsNode` returns on a state that has its ledger, when the data
list is at least as long as the id list. -/
theorem takeAsNode_returns {M : Type} (env : Env M) (alive : PeerId → Bool)
    (peer : Option PeerId) (ids : List SHAMapNode) (data : List Blob)
    (s : LedgerAcquire M) (hs : HasLedger s) (hlen : ids.length ≤ data.length) :
    ∃ r, takeAsNode env alive s ids data peer = some r := by
  rcases Bool.eq_false_or_eq_true s.mHaveBase with hb | hb
  · have hnb : (!s.mHaveBase) = false := by simp [hb]
    have hsome := hs hb
    cases hl : s.mLedger with
    | none => simp [hl] at hsome
    | some ledger =>
      have hne := addNodes_ne_pastEnd env ledger.accountHash ids data ledger.accountStateMap hlen
      unfold takeAsNode
      simp only [hnb, Bool.false_eq_true, if_false, hl]
      cases hw : addNodes env ledger.accountHash ledger.accountStateMap ids data with
      | pastEnd => exact absurd hw hne
      | refused m => exact ⟨_, rfl⟩
      | added m =>
        have hX : ∀ x : LedgerAcquire M, x.mLedger.isSome = true →
            ∃ r, (trigger env alive x peer).map (fun t => (true, progress t)) = some r := by
          intro x hx
          obtain ⟨t, ht, _⟩ := trigger_returns env alive x peer (fun _ => hx)
          exact ⟨(true, progress t), by simp [ht]⟩
        apply hX
        split <;> [split; skip] <;> rfl
  · exact ⟨(false, s), by simp [takeAsNode, hb]⟩

/-- Claim C19. In every state reached from a freshly constructed acquisition for
`hash` by a sequence of calls of `takeBase`, `takeTxNode`, `takeAsNode` and `trigger`
(and of the timer, `done`, `addOnComplete`, `peerHas` and `badPeer`), `have_base` is
true exactly when the ledger is present, and a present ledger has the hash `hash`.
Hence in such a state `trigger` returns, with any peer or none, so that its
`assert(mLedger)` does not fail; and `takeTxNode` and `takeAsNode` return whenever the
data list is at least as long as the id list, so that they do not dereference an
absent ledger. -/
theorem base_iff_ledger_present {M : Type} (env : Env M) (hash : Hash)
    (calls : List ((PeerId → Bool) × Op)) (t : LedgerAcquire M)
    (h : run env (LedgerAcquire.new hash) calls = some t) :
    (t.mHaveBase = true ↔ t.mLedger.isSome = true) ∧
    (∀ ledger, t.mLedger = some ledger → ledger.hash = hash) ∧
    (∀ (alive : PeerId → Bool) (peer : Option PeerId),
      ∃ u, trigger env alive t peer = some u) ∧
    (∀ (alive : PeerId → Bool) (ids : List SHAMapNode) (data : List Blob)
      (peer : Option PeerId), ids.length ≤ data.length →
      (∃ r, takeTxNode env alive t ids data peer = some r) ∧
      (∃ r, takeAsNode env alive t ids data peer = some r)) := by
  obtain ⟨⟨_, h2, h3⟩, h4⟩ := run_sound env calls (LedgerAcquire.new hash) t (Sound.new_ hash) h
  have hl : HasLedger t := fun hb => by rw [← h2]; exact hb
  refine ⟨by rw [h2], fun ledger hled => (h3 ledger hled).trans h4, fun alive peer => ?_,
    fun alive ids data peer hlen =>
      ⟨takeTxNode_returns env alive peer ids data t hl hlen,
       takeAsNode_returns env alive peer ids data t hl hlen⟩⟩
  obtain ⟨u, hu, _⟩ := trigger_returns env alive t peer hl
  exact ⟨u, hu⟩

/-- Claim C19 at a concrete input: the run that ends in `failedAsState`, which holds
the base and the ledger with hash `1`. -/
theorem base_iff_ledger_present_witness :
    run sampleEnv (LedgerAcquire.new 1)
        [(allAlive, Op.takeBase [1, 0, 9, 3] none),
         (allAlive, Op.takeAsNode [0] [[9, 0]] none)] = some failedAsState
    ∧ (failedAsState.mHaveBase = true ↔ failedAsState.mLedger.isSome = true)
    ∧ ∃ u, trigger sampleEnv allAlive failedAsState (some 10) = some u :=
  have h : run sampleEnv (LedgerAcquire.new 1)
        [(allAlive, Op.takeBase [1, 0, 9, 3] none),
         (allAlive, Op.takeAsNode [0] [[9, 0]] none)] = some failedAsState := by decide
  ⟨h, (base_iff_ledger_present sampleEnv 1 _ failedAsState h).1,
   (base_iff_ledger_present sampleEnv 1 _ failedAsState h).2.2.1 allAlive (some 10)⟩

/-- Claim C17 (evaluated at its failing input). The claim is that when `trigger` finds
a tree with nothing missing and not valid, `failed` is set and `done()` has been
called when `trigger` returns, with a peer or without one. In the state
`brokenTxState` with the completion function `5` registered, `trigger` without a peer
sets `failed` and invokes the function once; `trigger` with peer `10` sets `failed`
and invokes nothing. The same happens in the run below, where `takeTxNode` passes
the peer on to `trigger`, and the timer tick that follows does not invoke the
function either. -/
theorem trigger_with_peer_fails_without_done :
    (trigger sampleEnv allAlive { brokenTxState with mOnComplete := [5] } none).map
        (fun t => (t.mFailed, t.out.countP (Event.isCallback 5))) = some (true, 1)
    ∧ (trigger sampleEnv allAlive { brokenTxState with mOnComplete := [5] } (some 10)).map
        (fun t => (t.mFailed, t.out.countP (Event.isCallback 5))) = some (true, 0)
    ∧ (run sampleEnv (LedgerAcquire.new 1)
        [(allAlive, Op.addOnComplete 5), (allAlive, Op.peerHas 10),
         (allAlive, Op.takeBase [1, 7, 9, 3] (some 10)),
         (allAlive, Op.takeTxNode [0] [[7, 0]] (some 10)),
         (allAlive, Op.timer)]).map
        (fun t => (flags t, t.mOnComplete, t.out.countP (Event.isCallback 5)))
      = some ((true, false, false, false, true), [5], 0) := by
  decide

/-- The block of the base, with a peer. -/
theorem triggerBase_oneSend {M : Type} (alive : PeerId → Bool) (p : PeerId)
    (s : LedgerAcquire M) : OneSend p s (triggerBase alive s (some p)) := by
  unfold triggerBase request
  split
  · exact ⟨⟨_, rfl⟩, rfl⟩
  · exact ⟨rfl, rfl⟩

/-- The block of the transaction tree, with a peer. -/
theorem triggerTx_oneSend {M : Type} (env : Env M) (alive : PeerId → Bool) (p : PeerId)
    (s : LedgerAcquire M) : OneSend p s (triggerTx env alive s (some p)) := by
  unfold triggerTx request
  split
  · split
    · trivial
    · split
      · exact ⟨⟨_, rfl⟩, rfl⟩
      · dsimp only
        split
        · split
          · exact ⟨rfl, rfl⟩
          · split <;> exact ⟨rfl, rfl⟩
        · exact ⟨⟨_, rfl⟩, rfl⟩
  · exact ⟨rfl, rfl⟩

/-- The block of the account state tree, with a peer. -/
theorem triggerAs_oneSend {M : Type} (env : Env M) (alive : PeerId → Bool) (p : PeerId)
    (s : LedgerAcquire M) : OneSend p s (triggerAs env alive s (some p)) := by
  unfold triggerAs request
  split
  · split
    · trivial
    · split
      · exact ⟨⟨_, rfl⟩, rfl⟩
      · dsimp only
        split
        · split
          · exact ⟨rfl, rfl⟩
          · split <;> exact ⟨rfl, rfl⟩
        · exact ⟨⟨_, rfl⟩, rfl⟩
  · exact ⟨rfl, rfl⟩

/-- The last statement of `trigger` hands no packet to a peer and keeps the peer list. -/
theorem triggerEnd_no_send {M : Type} (s : LedgerAcquire M) :
    (triggerEnd s).mPeers = s.mPeers ∧
    ∃ extra, (triggerEnd s).out = s.out ++ extra ∧ extra.all (fun e => !e.isSend) = true := by
  unfold triggerEnd done setComplete resetTimer
  split
  · split
    · exact ⟨rfl, _, rfl, by simp [Event.isSend]⟩
    · exact ⟨rfl, _, rfl, by simp [Event.isSend]⟩
  · exact ⟨rfl, _, rfl, by simp [Event.isSend]⟩

/-- A call of `trigger` with a peer hands out at most one packet, to that peer, returns
right after it, and keeps the peer list. -/
theorem trigger_some_oneSend {M : Type} (env : Env M) (alive : PeerId → Bool) (p : PeerId)
    (s t : LedgerAcquire M) (h : trigger env alive s (some p) = some t) :
    t.mPeers = s.mPeers ∧
    ((∃ msg, t.out = s.out ++ [Event.sendPacket p msg]) ∨
     ∃ extra, t.out = s.out ++ extra ∧ extra.all (fun e => !e.isSend) = true) := by
  unfold trigger at h
  split at h
  · cases h
    exact ⟨rfl, Or.inr ⟨[], by simp⟩⟩
  · have kb := triggerBase_oneSend alive p s
    cases hb : triggerBase alive s (some p) with
    | fault => simp [hb] at h
    | ret s1 =>
      rw [hb] at kb
      simp only [hb, Option.some.injEq] at h
      subst h
      exact ⟨kb.2, Or.inl kb.1⟩
    | next s1 =>
      rw [hb] at kb
      simp only [hb] at h
      have kt := triggerTx_oneSend env alive p s1
      cases ht : triggerTx env alive s1 (some p) with
      | fault => simp [ht] at h
      | ret s2 =>
        rw [ht] at kt
        simp only [ht, Option.some.injEq] at h
        subst h
        obtain ⟨⟨msg, hm⟩, hp⟩ := kt
        exact ⟨hp.trans kb.2, Or.inl ⟨msg, by rw [hm, kb.1]⟩⟩
      | next s2 =>
        rw [ht] at kt
        simp only [ht] at h
        have ka := triggerAs_oneSend env alive p s2
        cases ha : triggerAs env alive s2 (some p) with
        | fault => simp [ha] at h
        | ret s3 =>
          rw [ha] at ka
          simp only [ha, Option.some.injEq] at h
          subst h
          obtain ⟨⟨msg, hm⟩, hp⟩ := ka
          exact ⟨(hp.trans kt.2).trans kb.2, Or.inl ⟨msg, by rw [hm, kt.1, kb.1]⟩⟩
        | next s3 =>
          rw [ha] at ka
          simp only [ha, Option.some.injEq] at h
          subst h
          obtain ⟨he1, extra, he2, he3⟩ := triggerEnd_no_send s3
          exact ⟨((he1.trans ka.2).trans kt.2).trans kb.2,
            Or.inr ⟨extra, by rw [he2, ka.1, kt.1, kb.1], he3⟩⟩

/-- What `sendRequest(tmGL)` does to the output: nothing, or one packet with the
request. -/
theorem sendRequest_out_cases {M : Type} (alive : PeerId → Bool) (s : LedgerAcquire M)
    (msg : TMGetLedger) :
    (sendRequest alive s msg).out = s.out ∨
    ∃ q, (sendRequest alive s msg).out = s.out ++ [Event.sendPacket q msg] := by
  rw [sendRequest_eq]
  cases s.mPeers.find? alive with
  | none => exact Or.inl (by simp)
  | some q => exact Or.inr ⟨q, rfl⟩

/-- The block of the base, without a peer. -/
theorem triggerBase_noReturn {M : Type} (alive : PeerId → Bool) (s : LedgerAcquire M) :
    NoReturn LedgerInfoType.liBASE s (triggerBase alive s none) := by
  unfold triggerBase request
  split
  · refine ⟨(sendRequest_frame alive s _).2.2.2.1, ?_⟩
    rcases sendRequest_out_cases alive s (baseRequest s.mHash) with h | ⟨q, h⟩
    · exact Or.inl h
    · exact Or.inr ⟨q, _, rfl, h⟩
  · exact ⟨rfl, Or.inl rfl⟩

/-- The block of the transaction tree, without a peer. -/
theorem triggerTx_noReturn {M : Type} (env : Env M) (alive : PeerId → Bool)
    (s : LedgerAcquire M) :
    NoReturn LedgerInfoType.liTX_NODE s (triggerTx env alive s none) := by
  unfold triggerTx request
  split
  · split
    · trivial
    · split
      · refine ⟨(sendRequest_frame alive s _).2.2.2.1, ?_⟩
        rcases sendRequest_out_cases alive s
          { ledgerhash := s.mHash, itype := LedgerInfoType.liTX_NODE,
            ledgerseq := some _, nodeids := [env.getRawString env.rootNode] } with h | ⟨q, h⟩
        · exact Or.inl h
        · exact Or.inr ⟨q, _, rfl, h⟩
      · dsimp only
        split
        · split
          · exact ⟨rfl, Or.inl rfl⟩
          · split <;> exact ⟨rfl, Or.inl rfl⟩
        · refine ⟨(sendRequest_frame alive _ _).2.2.2.1, ?_⟩
          rename_i ledger _ _ _
          rcases sendRequest_out_cases alive
            ({ s with mLedger := some { ledger with
                transactionMap := (env.getMissingNodes ledger.transactionMap 128).2 } } :
              LedgerAcquire M)
            { ledgerhash := s.mHash, itype := LedgerInfoType.liTX_NODE,
              ledgerseq := some ledger.ledgerSeq,
              nodeids := (env.getMissingNodes ledger.transactionMap 128).1.map
                env.getRawString } with h | ⟨q, h⟩
          · exact Or.inl h
          · exact Or.inr ⟨q, _, rfl, h⟩
  · exact ⟨rfl, Or.inl rfl⟩

/-- The block of the account state tree, without a peer. -/
theorem triggerAs_noReturn {M : Type} (env : Env M) (alive : PeerId → Bool)
    (s : LedgerAcquire M) :
    NoReturn LedgerInfoType.liAS_NODE s (triggerAs env alive s none) := by
  unfold triggerAs request
  split
  · split
    · trivial
    · split
      · refine ⟨(sendRequest_frame alive s _).2.2.2.1, ?_⟩
        rcases sendRequest_out_cases alive s
          { ledgerhash := s.mHash, itype := LedgerInfoType.liAS_NODE,
            ledgerseq := some _, nodeids := [env.getRawString env.rootNode] } with h | ⟨q, h⟩
        · exact Or.inl h
        · exact Or.inr ⟨q, _, rfl, h⟩
      · dsimp only
        split
        · split
          · exact ⟨rfl, Or.inl rfl⟩
          · split <;> exact ⟨rfl, Or.inl rfl⟩
        · refine ⟨(sendRequest_frame alive _ _).2.2.2.1, ?_⟩
          rename_i ledger _ _ _
          rcases sendRequest_out_cases alive
            ({ s with mLedger := some { ledger with
                accountStateMap := (env.getMissingNodes ledger.accountStateMap 128).2 } } :
              LedgerAcquire M)
            { ledgerhash := s.mHash, itype := LedgerInfoType.liAS_NODE,
              ledgerseq := some ledger.ledgerSeq,
              nodeids := (env.getMissingNodes ledger.accountStateMap 128).1.map
                env.getRawString } with h | ⟨q, h⟩
          · exact Or.inl h
          · exact Or.inr ⟨q, _, rfl, h⟩
  · exact ⟨rfl, Or.inl rfl⟩

/-- Without the base the blocks of the two trees are skipped. -/
theorem triggerTx_skip {M : Type} (env : Env M) (alive : PeerId → Bool) (s : LedgerAcquire M)
    (peer : Option PeerId) (hb : s.mHaveBase = false) :
    triggerTx env alive s peer = Flow.next s ∧ triggerAs env alive s peer = Flow.next s := by
  simp [triggerTx, triggerAs, hb]

/-- With the base the block of the base is skipped. -/
theorem triggerBase_skip {M : Type} (alive : PeerId → Bool) (s : LedgerAcquire M)
    (peer : Option PeerId) (hb : s.mHaveBase = true) :
    triggerBase alive s peer = Flow.next s := by
  simp [triggerBase, hb]

/-- A call of `trigger` without a peer on an acquisition that is neither complete nor
failed reaches the last statement, after handing out no packet, or one BASE request,
or one TX_NODE request, or one AS_NODE request, or a TX_NODE request followed by an
AS_NODE request. -/
theorem trigger_none_reaches_end {M : Type} (env : Env M) (alive : PeerId → Bool)
    (s t : LedgerAcquire M) (hc : s.mComplete = false) (hf : s.mFailed = false)
    (h : trigger env alive s none = some t) :
    ∃ u sends, t = triggerEnd u ∧ u.out = s.out ++ sends ∧
      sends.all Event.isSend = true ∧
      sends.filterMap Event.sendType ∈
        [[], [LedgerInfoType.liBASE], [LedgerInfoType.liTX_NODE], [LedgerInfoType.liAS_NODE],
         [LedgerInfoType.liTX_NODE, LedgerInfoType.liAS_NODE]] := by
  unfold trigger at h
  simp only [hc, hf, Bool.or_self, Bool.false_eq_true, if_false] at h
  rcases Bool.eq_false_or_eq_true s.mHaveBase with hb | hb
  · rw [triggerBase_skip alive s none hb] at h
    simp only at h
    have kt := triggerTx_noReturn env alive s
    cases ht : triggerTx env alive s none with
    | fault => simp [ht] at h
    | ret s2 => rw [ht] at kt; exact absurd kt (by simp [NoReturn])
    | next s2 =>
      rw [ht] at kt
      simp only [ht] at h
      have ka := triggerAs_noReturn env alive s2
      cases ha : triggerAs env alive s2 none with
      | fault => simp [ha] at h
      | ret s3 => rw [ha] at ka; exact absurd ka (by simp [NoReturn])
      | next s3 =>
        rw [ha] at ka
        simp only [ha, Option.some.injEq] at h
        subst h
        obtain ⟨_, kt2⟩ := kt
        obtain ⟨_, ka2⟩ := ka
        rcases kt2 with e2 | ⟨q2, m2, ty2, e2⟩ <;> rcases ka2 with e3 | ⟨q3, m3, ty3, e3⟩
        · exact ⟨s3, [], rfl, by rw [e3, e2]; simp, by simp, by simp⟩
        · exact ⟨s3, [Event.sendPacket q3 m3], rfl, by rw [e3, e2],
            by simp [Event.isSend], by simp [Event.sendType, ty3]⟩
        · exact ⟨s3, [Event.sendPacket q2 m2], rfl, by rw [e3, e2],
            by simp [Event.isSend], by simp [Event.sendType, ty2]⟩
        · exact ⟨s3, [Event.sendPacket q2 m2, Event.sendPacket q3 m3], rfl,
            by rw [e3, e2]; simp, by simp [Event.isSend],
            by simp [Event.sendType, ty2, ty3]⟩
  · have kb := triggerBase_noReturn alive s
    cases hbb : triggerBase alive s none with
    | fault => simp [hbb] at h
    | ret s1 => rw [hbb] at kb; exact absurd kb (by simp [NoReturn])
    | next s1 =>
      rw [hbb] at kb
      obtain ⟨kb1, kb2⟩ := kb
      have hs1 : s1.mHaveBase = false := kb1.trans hb
      obtain ⟨h1, h2⟩ := triggerTx_skip env alive s1 none hs1
      simp only [hbb, h1, h2, Option.some.injEq] at h
      subst h
      rcases kb2 with e | ⟨q, m, ty, e⟩
      · exact ⟨s1, [], rfl, by rw [e]; simp, by simp, by simp⟩
      · exact ⟨s1, [Event.sendPacket q m], rfl, e, by simp [Event.isSend],
          by simp [Event.sendType, ty]⟩

/-- Claim C18. A call of `trigger` with a peer `p` keeps the peer list, so it does not
go through the selection of the first live peer, and either hands exactly one packet
to `p` and returns with nothing done after it, or hands out no packet at all. A call
of `trigger` without a peer on an acquisition that is neither complete nor failed
never returns before its last statement: it hands out no packet, one BASE request,
one TX_NODE request, one AS_NODE request, or a TX_NODE request followed by an
AS_NODE request, and then calls `done()` or `resetTimer()`. In the state
`needRootsState` it does hand a TX_NODE request and then an AS_NODE request to
peer `10` and arms the timer. -/
theorem trigger_sends_at_most_once_to_peer {M : Type} (env : Env M) (alive : PeerId → Bool)
    (s t : LedgerAcquire M) :
    (∀ p : PeerId, trigger env alive s (some p) = some t →
      t.mPeers = s.mPeers ∧
      ((∃ msg, t.out = s.out ++ [Event.sendPacket p msg]) ∨
       ∃ extra, t.out = s.out ++ extra ∧ extra.all (fun e => !e.isSend) = true)) ∧
    (s.mComplete = false → s.mFailed = false → trigger env alive s none = some t →
      ∃ u sends, t = triggerEnd u ∧ u.out = s.out ++ sends ∧
        sends.all Event.isSend = true ∧
        sends.filterMap Event.sendType ∈
          [[], [LedgerInfoType.liBASE], [LedgerInfoType.liTX_NODE],
           [LedgerInfoType.liAS_NODE],
           [LedgerInfoType.liTX_NODE, LedgerInfoType.liAS_NODE]]) ∧
    trigger sampleEnv allAlive needRootsState none =
      some { needRootsState with
        out := [Event.sendPacket 10 txRootRequest, Event.sendPacket 10 asRootRequest,
                Event.resetTimer] } :=
  ⟨fun p h => trigger_some_oneSend env alive p s t h,
   fun hc hf h => trigger_none_reaches_end env alive s t hc hf h, by decide⟩

/-- Claim C18 at concrete inputs: `trigger` with peer `12` and `trigger` without a peer
on the state `needRootsState`, whose peer list is `[10]`. -/
theorem trigger_sends_at_most_once_to_peer_witness :
    ({ needRootsState with out := [Event.sendPacket 12 txRootRequest] } :
        LedgerAcquire SampleMap).mPeers = [10]
    ∧ ∃ u sends,
        ({ needRootsState with
            out := [Event.sendPacket 10 txRootRequest, Event.sendPacket 10 asRootRequest,
                    Event.resetTimer] } : LedgerAcquire SampleMap) = triggerEnd u ∧
        u.out = needRootsState.out ++ sends ∧ sends.all Event.isSend = true ∧
        sends.filterMap Event.sendType ∈
          [[], [LedgerInfoType.liBASE], [LedgerInfoType.liTX_NODE],
           [LedgerInfoType.liAS_NODE],
           [LedgerInfoType.liTX_NODE, LedgerInfoType.liAS_NODE]] :=
  ⟨((trigger_sends_at_most_once_to_peer sampleEnv allAlive needRootsState
      { needRootsState with out := [Event.sendPacket 12 txRootRequest] }).1 12
      (by decide)).1,
   (trigger_sends_at_most_once_to_peer sampleEnv allAlive needRootsState
      { needRootsState with
        out := [Event.sendPacket 10 txRootRequest, Event.sendPacket 10 asRootRequest,
                Event.resetTimer] }).2.1 rfl rfl (by decide)⟩

/-- The identity of the object registered under a hash is not touched by `store`. -/
theorem store_lookup {M : Type} (hash k : Hash) (acq : LedgerAcquire M) :
    ∀ l : List (Hash × Nat × LedgerAcquire M),
      ((l.map (fun e => if e.1 == k then (e.1, e.2.1, acq) else e)).lookup hash).map
          (fun e => e.1)
        = (l.lookup hash).map (fun e => e.1)
  | [] => rfl
  | e :: rest => by
    have ih := store_lookup hash k acq rest
    obtain ⟨a, b, c⟩ := e
    simp only [List.map_cons]
    split
    · simp only [List.lookup_cons]
      cases h2 : hash == a
      · exact ih
      · rfl
    · simp only [List.lookup_cons]
      cases h2 : hash == a
      · exact ih
      · rfl

/-- Dropping another hash does not touch the entry of a hash. -/
theorem drop_lookup {M : Type} (hash k : Hash) (hk : k ≠ hash) :
    ∀ l : List (Hash × Nat × LedgerAcquire M),
      (l.filter (fun e => e.1 != k)).lookup hash = l.lookup hash
  | [] => rfl
  | e :: rest => by
    have ih := drop_lookup hash k hk rest
    obtain ⟨a, b, c⟩ := e
    by_cases h1 : a = k
    · subst h1
      have h2 : (hash == a) = false := by
        simp only [beq_eq_false_iff_ne, ne_eq]
        exact fun h => hk h.symm
      have h4 : (a != a) = false := by simp
      simp only [List.filter_cons, h4, Bool.false_eq_true, if_false, List.lookup_cons, h2]
      exact ih
    · have h3 : (a != k) = true := by simpa using h1
      simp only [List.filter_cons, h3, if_true, List.lookup_cons]
      cases h2 : hash == a
      · exact ih
      · rfl

/-- The function `gotLedgerData` leaves the registry as it is or stores a new state of
the acquisition registered under the hash of the packet. -/
theorem gotLedgerData_registry {M : Type} (env : Env M) (mkNode : Blob → SHAMapNode)
    (alive : PeerId → Bool) (reg : LedgerAcquireMaster M) (packet : TMLedgerData)
    (peer : Option PeerId) (r : Bool × LedgerAcquireMaster M)
    (h : gotLedgerData env mkNode alive reg packet peer = some r) :
    r.2 = reg ∨ ∃ acq, r.2 = store reg (toHash packet.ledgerhash) acq := by
  unfold gotLedgerData at h
  split at h
  · cases h
    exact Or.inl rfl
  · dsimp only at h
    split at h
    · cases h
      exact Or.inl rfl
    · split at h
      · split at h
        · simp only [Option.map_eq_some'] at h
          obtain ⟨x, _, rfl⟩ := h
          exact Or.inr ⟨x.2, rfl⟩
        · cases h
          exact Or.inl rfl
      · split at h
        · cases h
          exact Or.inl rfl
        · split at h
          · cases h
            exact Or.inl rfl
          · split at h
            · simp only [Option.map_eq_some'] at h
              obtain ⟨x, _, rfl⟩ := h
              exact Or.inr ⟨x.2, rfl⟩
            · simp only [Option.map_eq_some'] at h
              obtain ⟨x, _, rfl⟩ := h
              exact Or.inr ⟨x.2, rfl⟩
      · cases h
        exact Or.inl rfl

/-- A call that is not `dropLedger` of the hash keeps the identity of the object
registered under the hash. -/
theorem applyMasterOp_keeps {M : Type} (env : Env M) (mkNode : Blob → SHAMapNode)
    (alive : PeerId → Bool) (reg reg2 : LedgerAcquireMaster M) (op : MasterOp)
    (hash : Hash) (p : Nat) (hop : op.isDrop hash = false)
    (hp : (reg.mLedgers.lookup hash).map (fun e => e.1) = some p)
    (h : applyMasterOp env mkNode alive reg op = some reg2) :
    (reg2.mLedgers.lookup hash).map (fun e => e.1) = some p := by
  cases op with
  | findCreate k =>
    simp only [applyMasterOp, Option.some.injEq] at h
    subst h
    unfold findCreate
    cases hk : reg.mLedgers.lookup k with
    | some entry => exact hp
    | none =>
      have hne : (hash == k) = false := by
        cases hb : hash == k with
        | false => rfl
        | true =>
          have : hash = k := by simpa using hb
          subst this
          simp [hk] at hp
      simp only [List.lookup_cons, hne]
      exact hp
  | find k =>
    simp only [applyMasterOp, find, Option.some.injEq] at h
    exact h ▸ hp
  | hasLedger k =>
    simp only [applyMasterOp, hasLedger, Option.some.injEq] at h
    exact h ▸ hp
  | dropLedger k =>
    simp only [applyMasterOp, Option.some.injEq] at h
    subst h
    have hk : k ≠ hash := by simpa [MasterOp.isDrop] using hop
    simp only [dropLedger]
    rw [drop_lookup hash k hk]
    exact hp
  | gotLedgerData packet peer =>
    simp only [applyMasterOp, Option.map_eq_some'] at h
    obtain ⟨r, hr, rfl⟩ := h
    rcases gotLedgerData_registry env mkNode alive reg packet peer r hr with h1 | ⟨acq, h1⟩
    · rw [h1]
      exact hp
    · rw [h1]
      simp only [store]
      rw [store_lookup]
      exact hp

/-- A sequence of calls without `dropLedger` of the hash keeps the identity of the
object registered under the hash. -/
theorem runMaster_keeps {M : Type} (env : Env M) (mkNode : Blob → SHAMapNode) (hash : Hash)
    (p : Nat) :
    ∀ (calls : List ((PeerId → Bool) × MasterOp)) (reg reg2 : LedgerAcquireMaster M),
      (∀ c ∈ calls, c.2.isDrop hash = false) →
      (reg.mLedgers.lookup hash).map (fun e => e.1) = some p →
      runMaster env mkNode reg calls = some reg2 →
      (reg2.mLedgers.lookup hash).map (fun e => e.1) = some p
  | [], reg, reg2, _, hp, h => by
    simp only [runMaster, Option.some.injEq] at h
    exact h ▸ hp
  | c :: cs, reg, reg2, hc, hp, h => by
    simp only [runMaster] at h
    cases h1 : applyMasterOp env mkNode c.1 reg c.2 with
    | none => simp [h1] at h
    | some reg1 =>
      simp only [h1] at h
      exact runMaster_keeps env mkNode hash p cs reg1 reg2
        (fun x hx => hc x (List.mem_cons_of_mem _ hx))
        (applyMasterOp_keeps env mkNode c.1 reg reg1 c.2 hash p
          (hc c (List.mem_cons_self _ _)) hp h1) h

/-- After `findCreate` the hash is registered with the identity returned. -/
theorem findCreate_lookup {M : Type} (reg : LedgerAcquireMaster M) (hash : Hash) :
    ((findCreate reg hash).2.mLedgers.lookup hash).map (fun e => e.1)
      = some (findCreate reg hash).1 := by
  unfold findCreate
  cases hk : reg.mLedgers.lookup hash with
  | some entry => simp [hk]
  | none => simp [List.lookup_cons]

/-- Claim C13. Two successive `findCreate(h)` calls return the same handle, and the
second leaves the registry as it is: it constructs no acquisition and arms no timer.
The functions `find` and `hasLedger` leave the registry as it is. After
`findCreate(h)`, `find(h)` returns that handle and `hasLedger(h)` is true, and both
stay so after every sequence of calls of `findCreate`, `find`, `hasLedger`,
`gotLedgerData` and `dropLedger` that has no `dropLedger(h)` in it; after
`dropLedger(h)`, `find(h)` finds nothing and `hasLedger(h)` is false. -/
theorem findCreate_twice_same_handle {M : Type} (env : Env M) (mkNode : Blob → SHAMapNode)
    (reg : LedgerAcquireMaster M) (h : Hash) :
    findCreate (findCreate reg h).2 h = ((findCreate reg h).1, (findCreate reg h).2) ∧
    (∀ (r : LedgerAcquireMaster M) (k : Hash), (find r k).2 = r ∧ (hasLedger r k).2 = r) ∧
    find (findCreate reg h).2 h = (some (findCreate reg h).1, (findCreate reg h).2) ∧
    hasLedger (findCreate reg h).2 h = (true, (findCreate reg h).2) ∧
    (∀ (calls : List ((PeerId → Bool) × MasterOp)) (reg2 : LedgerAcquireMaster M),
      (∀ c ∈ calls, c.2.isDrop h = false) →
      runMaster env mkNode (findCreate reg h).2 calls = some reg2 →
      (find reg2 h).1 = some (findCreate reg h).1 ∧ (hasLedger reg2 h).1 = true) ∧
    (∀ r : LedgerAcquireMaster M,
      (find (dropLedger r h) h).1 = none ∧ (hasLedger (dropLedger r h) h).1 = false) := by
  have hl := findCreate_lookup reg h
  refine ⟨?_, fun r k => ⟨rfl, rfl⟩, ?_, ?_, ?_, ?_⟩
  · cases hk : (findCreate reg h).2.mLedgers.lookup h with
    | none => simp [hk] at hl
    | some entry =>
      simp only [hk, Option.map_some', Option.some.injEq] at hl
      have hfound : ∀ (r : LedgerAcquireMaster M) (e : Nat × LedgerAcquire M),
          r.mLedgers.lookup h = some e → findCreate r h = (e.1, r) := by
        intro r e he
        simp [findCreate, he]
      rw [hfound _ entry hk, hl]
  · simp only [find, hl]
  · cases hk : (findCreate reg h).2.mLedgers.lookup h with
    | none => simp [hk] at hl
    | some entry => simp [hasLedger, hk]
  · intro calls reg2 hc hr
    have hk := runMaster_keeps env mkNode h (findCreate reg h).1 calls _ reg2 hc hl hr
    refine ⟨hk, ?_⟩
    cases hk2 : reg2.mLedgers.lookup h with
    | none => simp [hk2] at hk
    | some entry => simp [hasLedger, hk2]
  · intro r
    have hnone : ∀ l : List (Hash × Nat × LedgerAcquire M),
        (l.filter (fun e => e.1 != h)).lookup h = none := by
      intro l
      induction l with
      | nil => rfl
      | cons e rest ih =>
        obtain ⟨a, b, c⟩ := e
        by_cases ha : a = h
        · subst ha
          have h4 : (a != a) = false := by simp
          simp only [List.filter_cons, h4, Bool.false_eq_true, if_false]
          exact ih
        · have h3 : (a != h) = true := by simpa using ha
          have h5 : (h == a) = false := by
            simp only [beq_eq_false_iff_ne, ne_eq]
            exact fun e => ha e.symm
          simp only [List.filter_cons, h3, if_true, List.lookup_cons, h5]
          exact ih
    simp [find, hasLedger, dropLedger, hnone]

/-- Claim C13 at a concrete input: in the empty registry `findCreate(1)` makes object
`0`; after `findCreate(2)`, a header for ledger `1` from peer `10`, `dropLedger(2)` and
`find(1)`, the hash `1` is still registered with object `0`. -/
theorem findCreate_twice_same_handle_witness :
    ∃ reg2, runMaster sampleEnv sampleMkNode
        (findCreate (LedgerAcquireMaster.empty : LedgerAcquireMaster SampleMap) 1).2
        [(allAlive, MasterOp.findCreate 2),
         (allAlive, MasterOp.gotLedgerData
            { ledgerhash := hashOneBytes, type := some LedgerInfoType.liBASE,
              nodes := [{ nodeid := none, nodedata := some [1, 7, 9, 3] }] } (some 10)),
         (allAlive, MasterOp.dropLedger 2), (allAlive, MasterOp.find 1)] = some reg2 ∧
      (find reg2 1).1 = some 0 ∧ (hasLedger reg2 1).1 = true := by
  have hne : (runMaster sampleEnv sampleMkNode
        (findCreate (LedgerAcquireMaster.empty : LedgerAcquireMaster SampleMap) 1).2
        [(allAlive, MasterOp.findCreate 2),
         (allAlive, MasterOp.gotLedgerData
            { ledgerhash := hashOneBytes, type := some LedgerInfoType.liBASE,
              nodes := [{ nodeid := none, nodedata := some [1, 7, 9, 3] }] } (some 10)),
         (allAlive, MasterOp.dropLedger 2), (allAlive, MasterOp.find 1)]).isSome = true := by
    decide
  obtain ⟨reg2, h2⟩ := Option.isSome_iff_exists.1 hne
  exact ⟨reg2, h2,
    (findCreate_twice_same_handle sampleEnv sampleMkNode
      (LedgerAcquireMaster.empty : LedgerAcquireMaster SampleMap) 1).2.2.2.2.1 _ reg2
      (by decide) h2⟩

/-- The loop of `gotLedgerData` returns false exactly when a node lacks its id or its
data. -/
theorem assemble_eq_none (mkNode : Blob → SHAMapNode) :
    ∀ nodes : List TMLedgerNode,
      (∃ n ∈ nodes, n.nodeid = none ∨ n.nodedata = none) → assemble mkNode nodes = none
  | [], h => by simp at h
  | node :: rest, h => by
    obtain ⟨n, hn, hbad⟩ := h
    unfold assemble
    rcases List.mem_cons.1 hn with rfl | hr
    · rcases hbad with hb | hb
      · simp [hb]
      · cases hid : n.nodeid <;> simp [hb]
    · have ih := assemble_eq_none mkNode rest ⟨n, hr, hbad⟩
      cases hid : node.nodeid with
      | none => rfl
      | some id =>
        cases hd : node.nodedata with
        | none => rfl
        | some d => simp [ih]

/-- Claim C14. The function `gotLedgerData` returns false and leaves the registry,
with every acquisition in it, as it is, hence without a call of `takeBase`,
`takeTxNode` or `takeAsNode`, whenever the ledger hash of the packet is not 32 bytes
long, or no acquisition is registered for the hash, or the type is BASE and the
packet does not have exactly one node, or the type is TX_NODE or AS_NODE and the
node list is empty or a node lacks its id or its data, or the type is none of the
three. -/
theorem gotLedgerData_rejects_malformed {M : Type} (env : Env M) (mkNode : Blob → SHAMapNode)
    (alive : PeerId → Bool) (reg : LedgerAcquireMaster M) (packet : TMLedgerData)
    (peer : Option PeerId)
    (h : packet.ledgerhash.length ≠ 32 ∨
      reg.mLedgers.lookup (toHash packet.ledgerhash) = none ∨
      (packet.type = some LedgerInfoType.liBASE ∧ packet.nodes.length ≠ 1) ∨
      ((packet.type = some LedgerInfoType.liTX_NODE ∨
          packet.type = some LedgerInfoType.liAS_NODE) ∧
        (packet.nodes = [] ∨ ∃ n ∈ packet.nodes, n.nodeid = none ∨ n.nodedata = none)) ∨
      packet.type = none) :
    gotLedgerData env mkNode alive reg packet peer = some (false, reg) := by
  unfold gotLedgerData
  split
  · rfl
  · rename_i hlen
    have hlen2 : packet.ledgerhash.length = 32 := by simpa using hlen
    dsimp only
    split
    · rfl
    · rename_i entry hlook
      rcases h with h | h | ⟨ht, hn⟩ | ⟨ht, hn⟩ | ht
      · exact absurd hlen2 h
      · rw [h] at hlook
        cases hlook
      · simp only [ht]
        split
        · rename_i node hnodes
          rw [hnodes] at hn
          simp at hn
        · rfl
      · have hbase : packet.type ≠ some LedgerInfoType.liBASE := by
          rcases ht with ht | ht <;> simp [ht]
        split
        · rename_i htb
          exact absurd htb hbase
        · split
          · rfl
          · rename_i hpos
            rcases hn with hn | hn
            · simp [hn] at hpos
            · simp [assemble_eq_none mkNode packet.nodes hn]
        · rfl
      · simp only [ht]

/-- Claim C14 at a concrete input: a TX_NODE packet for the registered ledger `1`
whose second node has no data. -/
theorem gotLedgerData_rejects_malformed_witness :
    gotLedgerData sampleEnv sampleMkNode allAlive
        (findCreate (LedgerAcquireMaster.empty : LedgerAcquireMaster SampleMap) 1).2
        { ledgerhash := hashOneBytes, type := some LedgerInfoType.liTX_NODE,
          nodes := [{ nodeid := some [0], nodedata := some [7, 1] },
                    { nodeid := some [4], nodedata := none }] } (some 10)
      = some (false,
          (findCreate (LedgerAcquireMaster.empty : LedgerAcquireMaster SampleMap) 1).2) :=
  gotLedgerData_rejects_malformed sampleEnv sampleMkNode allAlive _ _ (some 10)
    (Or.inr (Or.inr (Or.inr (Or.inl ⟨Or.inl rfl,
      Or.inr ⟨{ nodeid := some [4], nodedata := none }, by decide, Or.inr rfl⟩⟩))))

/-- The two lists the loop of `gotLedgerData` builds are as long as the node list, and
their elements at each position come from the node at that position. -/
theorem assemble_parallel (mkNode : Blob → SHAMapNode) :
    ∀ (nodes : List TMLedgerNode) (ids : List SHAMapNode) (datas : List Blob),
      assemble mkNode nodes = some (ids, datas) →
      ids.length = nodes.length ∧ datas.length = nodes.length ∧
      ∀ (i : Nat) (hi : i < nodes.length),
        (nodes[i]).nodeid.map mkNode = ids[i]? ∧ (nodes[i]).nodedata = datas[i]?
  | [], ids, datas, h => by
    simp only [assemble, Option.some.injEq, Prod.mk.injEq] at h
    obtain ⟨rfl, rfl⟩ := h
    exact ⟨rfl, rfl, fun i hi => absurd hi (by simp)⟩
  | node :: rest, ids, datas, h => by
    unfold assemble at h
    cases hid : node.nodeid with
    | none => simp [hid] at h
    | some id =>
      cases hd : node.nodedata with
      | none => simp [hid, hd] at h
      | some d =>
        cases hr : assemble mkNode rest with
        | none => simp [hid, hd, hr] at h
        | some r =>
          simp only [hid, hd, hr, Option.some.injEq, Prod.mk.injEq] at h
          obtain ⟨rfl, rfl⟩ := h
          obtain ⟨h1, h2, h3⟩ := assemble_parallel mkNode rest r.1 r.2 hr
          refine ⟨by simp [h1], by simp [h2], fun i hi => ?_⟩
          cases i with
          | zero => simp [hid, hd]
          | succ j =>
            have hj : j < rest.length := by simpa using hi
            simpa using h3 j hj

/-- Claim C20. When `gotLedgerData` forwards a packet to `takeTxNode` or `takeAsNode`,
that is when the hash has 32 bytes, an acquisition is registered for it, the type is
TX_NODE or AS_NODE, the node list is not empty and every node has its id and its
data, the call it makes is the one with the two lists built by its loop. The lists
have the same length, the number of nodes of the packet, which is at least 1, and
their elements at each position come from the node of the packet at that position.
Hence the walk of `takeTxNode` and `takeAsNode` over them never reads past the end
of the data list. -/
theorem gotLedgerData_forwards_parallel_lists {M : Type} (env : Env M)
    (mkNode : Blob → SHAMapNode) (alive : PeerId → Bool) (reg : LedgerAcquireMaster M)
    (packet : TMLedgerData) (peer : Option PeerId) (entry : Nat × LedgerAcquire M)
    (ids : List SHAMapNode) (datas : List Blob)
    (hlen : packet.ledgerhash.length = 32)
    (hlook : reg.mLedgers.lookup (toHash packet.ledgerhash) = some entry)
    (hne : packet.nodes ≠ [])
    (ha : assemble mkNode packet.nodes = some (ids, datas)) :
    (packet.type = some LedgerInfoType.liTX_NODE →
      gotLedgerData env mkNode alive reg packet peer =
        (takeTxNode env alive entry.2 ids datas peer).map
          (fun r => (r.1, store reg (toHash packet.ledgerhash) r.2))) ∧
    (packet.type = some LedgerInfoType.liAS_NODE →
      gotLedgerData env mkNode alive reg packet peer =
        (takeAsNode env alive entry.2 ids datas peer).map
          (fun r => (r.1, store reg (toHash packet.ledgerhash) r.2))) ∧
    ids.length = packet.nodes.length ∧ datas.length = packet.nodes.length ∧
    1 ≤ packet.nodes.length ∧
    (∀ (i : Nat) (hi : i < packet.nodes.length),
      (packet.nodes[i]).nodeid.map mkNode = ids[i]? ∧
      (packet.nodes[i]).nodedata = datas[i]?) ∧
    (∀ (rootHash : Hash) (m : M), addNodes env rootHash m ids datas ≠ Walk.pastEnd) := by
  obtain ⟨h1, h2, h3⟩ := assemble_parallel mkNode packet.nodes ids datas ha
  have hpos : 1 ≤ packet.nodes.length := by
    cases hn : packet.nodes with
    | nil => exact absurd hn hne
    | cons a l => simp
  have hnle : ¬ packet.nodes.length ≤ 0 := by omega
  refine ⟨fun ht => ?_, fun ht => ?_, h1, h2, hpos, h3, fun rootHash m => ?_⟩
  · simp [gotLedgerData, hlen, hlook, ht, hnle, ha]
  · simp [gotLedgerData, hlen, hlook, ht, hnle, ha]
  · exact addNodes_ne_pastEnd env rootHash ids datas m (by omega)

/-- Claim C20 at a concrete input: a TX_NODE packet with two nodes for the registered
ledger `1`. -/
theorem gotLedgerData_forwards_parallel_lists_witness :
    gotLedgerData sampleEnv sampleMkNode allAlive
        (findCreate (LedgerAcquireMaster.empty : LedgerAcquireMaster SampleMap) 1).2
        { ledgerhash := hashOneBytes, type := some LedgerInfoType.liTX_NODE,
          nodes := [{ nodeid := some [0], nodedata := some [7, 1] },
                    { nodeid := some [4], nodedata := some [8] }] } (some 10)
      = (takeTxNode sampleEnv allAlive (resetTimer (LedgerAcquire.new 1)) [0, 4] [[7, 1], [8]]
          (some 10)).map
          (fun r => (r.1,
            store (findCreate (LedgerAcquireMaster.empty : LedgerAcquireMaster SampleMap) 1).2
              (toHash hashOneBytes) r.2)) :=
  (gotLedgerData_forwards_parallel_lists sampleEnv sampleMkNode allAlive
    (findCreate (LedgerAcquireMaster.empty : LedgerAcquireMaster SampleMap) 1).2
    { ledgerhash := hashOneBytes, type := some LedgerInfoType.liTX_NODE,
      nodes := [{ nodeid := some [0], nodedata := some [7, 1] },
                { nodeid := some [4], nodedata := some [8] }] } (some 10)
    (0, resetTimer (LedgerAcquire.new 1)) [0, 4] [[7, 1], [8]]
    (by decide) (by decide) (by decide) (by decide)).1 rfl

end Ripple
